import Mathlib

/-!
# nomad-cephfs-snapshot: create-and-rotate of snapshot marker directories

A shallow embedding of `snapshot.go` (functions `createSnapshotIfNotExists`,
`rotateSnapshots` and `main`) together with the properties of its specification.

Modelling conventions.

* Go strings are Lean `String`s.  Go compares strings byte by byte; for the
  well-formed UTF-8 names represented here this is the code-point order computed
  by `stringLess`.
* The file system is reduced to the one path the program works on, the snapshot
  directory `snapDir = <target>/.snap`, and its direct children.  Every name handed
  to a system call is a single path component, so `filepath.Join snapDir name`
  denotes the child `name` of the snapshot directory.
* System calls fail for name-space reasons only (`ENOENT`, `ENOTDIR`, `EEXIST`,
  `ENOTEMPTY`, and `ENAMETOOLONG` for a component of more than 255 bytes); permissions,
  quotas and I/O errors are outside the model.
* `log.Printf` lines are recorded as `Event`s, `log.Fatal` ends the run with status
  `fatal`, and an out-of-range slice index ends it with status `panicked`.
* `time.Now()` is a parameter of `main`, reduced to the calendar fields the three layouts
  print; `Time.Format` is modelled for these layouts by the library routine `appendInt`
  that renders each field.
* The retention flags are Go `int`s (64 bits), modelled as `Int`.  The subtraction
  `len(snaps) - retention` is `lenSub`: a slice length is a non-negative `int`, so the
  difference can leave the range of `int` only for a negative retention, and is then
  reduced modulo `2^64`.

The file has three parts: the embedding of the program, the vocabulary in which the
specification is stated, and the theorems.
-/

namespace Snapshot

/-! ## Strings -/

/-- Lexicographic comparison of two character sequences, as Go's `<` on strings. -/
def lessChars : List Char → List Char → Bool
  | [], [] => false
  | [], _ :: _ => true
  | _ :: _, [] => false
  | a :: as, b :: bs =>
    if a < b then true else if b < a then false else lessChars as bs

/-- Go's `a < b` on strings. -/
def stringLess (a b : String) : Bool := lessChars a.data b.data

/-- Go's `a <= b` on strings, the order `sort.Strings` sorts by. -/
def StrLE (a b : String) : Prop := stringLess b a = false

instance : DecidableRel StrLE := fun a b => decEq (stringLess b a) false

/-- The function `strings.HasPrefix`:
`len(s) >= len(prefix) && s[:len(prefix)] == prefix`. -/
def hasPrefix (s pfx : String) : Bool :=
  decide (pfx.data.length ≤ s.data.length) && (s.data.take pfx.data.length == pfx.data)

/-- The function `sort.Strings`: the ascending rearrangement of the slice.  The order is
total and antisymmetric, so the result does not depend on the sorting algorithm. -/
def sortStrings (xs : List String) : List String := List.insertionSort StrLE xs

/-! ## The snapshot directory -/

/-- Error numbers the modelled system calls return. -/
inductive Errno
  | ENOENT
  | ENOTDIR
  | EEXIST
  | ENOTEMPTY
  | ENAMETOOLONG
deriving DecidableEq, Repr

/-- What a name in the snapshot directory refers to: a directory with the names of its
children, a symbolic link (dangling or not), or any other non-directory. -/
inductive Node
  | file
  | link (dangling : Bool)
  | dir (children : List String)
deriving DecidableEq, Repr

/-- The value `entry.IsDir()` of a directory entry (links are not followed). -/
def Node.isDir : Node → Bool
  | .dir _ => true
  | _ => false

/-- One entry of the snapshot directory. -/
structure DirEntry where
  name : String
  node : Node
deriving DecidableEq, Repr

/-- The state of the path `snapDir`: it does not exist (and can be created), it cannot be
a directory because it or one of its ancestors is a non-directory, or it is a directory
with the listed entries (in storage order, names pairwise distinct). -/
inductive Root
  | missing
  | notDir
  | dir (entries : List DirEntry)
deriving DecidableEq, Repr

/-- The entries under the snapshot directory (none when it is not a directory). -/
def Root.entries : Root → List DirEntry
  | .dir es => es
  | _ => []

/-- Well-formed states: the names in a directory are pairwise distinct. -/
def Root.WF (fs : Root) : Prop := (fs.entries.map DirEntry.name).Nodup

instance (fs : Root) : Decidable fs.WF := by unfold Root.WF; infer_instance

/-- The limit `NAME_MAX` on the length in bytes of one path component. -/
def nameMax : Nat := 255

/-- A name longer than `NAME_MAX` bytes (`len(name)` of a Go string counts bytes). -/
def nameTooLong (name : String) : Bool := decide (nameMax < name.utf8ByteSize)

/-- The node a name refers to in a list of entries. -/
def lookup (es : List DirEntry) (name : String) : Option Node :=
  (es.find? (fun e => e.name == name)).map DirEntry.node

/-- The call `os.MkdirAll(snapDir, 0755)`. -/
def mkdirAll : Root → Except Errno Root
  | .missing => .ok (.dir [])
  | .notDir => .error .ENOTDIR
  | .dir es => .ok (.dir es)

/-- The call `os.Stat(filepath.Join(snapDir, name))`; links are followed. -/
def stat (fs : Root) (name : String) : Except Errno Node :=
  match fs with
  | .missing => .error .ENOENT
  | .notDir => .error .ENOTDIR
  | .dir es =>
    if nameTooLong name then .error .ENAMETOOLONG
    else
      match lookup es name with
      | none => .error .ENOENT
      | some (.link true) => .error .ENOENT
      | some n => .ok n

/-- The call `os.Mkdir(filepath.Join(snapDir, name), 0755)`. -/
def mkdir (fs : Root) (name : String) : Except Errno Root :=
  match fs with
  | .missing => .error .ENOENT
  | .notDir => .error .ENOTDIR
  | .dir es =>
    if nameTooLong name then .error .ENAMETOOLONG
    else
      match lookup es name with
      | none => .ok (.dir (es ++ [⟨name, .dir []⟩]))
      | some _ => .error .EEXIST

/-- The call `os.ReadDir(snapDir)`: all entries, sorted by file name. -/
def readDir (fs : Root) : Except Errno (List DirEntry) :=
  match fs with
  | .missing => .error .ENOENT
  | .notDir => .error .ENOTDIR
  | .dir es => .ok (List.insertionSort (fun a b => StrLE a.name b.name) es)

/-- The call `syscall.Rmdir(filepath.Join(snapDir, name))`: removes an empty directory
and nothing else.  The program calls it only with names it has read from the directory. -/
def rmdir (fs : Root) (name : String) : Except Errno Root :=
  match fs with
  | .missing => .error .ENOENT
  | .notDir => .error .ENOTDIR
  | .dir es =>
    match lookup es name with
    | none => .error .ENOENT
    | some (.dir []) => .ok (.dir (es.filter (fun e => !(e.name == name))))
    | some (.dir (_ :: _)) => .error .ENOTEMPTY
    | some _ => .error .ENOTDIR

/-- The predicate `os.IsNotExist`. -/
def isNotExist : Errno → Bool
  | .ENOENT => true
  | _ => false

/-! ## Runs -/

/-- The lines the program writes with `log.Printf`. -/
inductive Event
  | created (name : String)
  | createFailed (name : String) (e : Errno)
  | statFailed (name : String) (e : Errno)
  | alreadyExists (name : String)
  | readDirFailed (e : Errno)
  | removed (name : String)
  | removeFailed (name : String) (e : Errno)
deriving DecidableEq, Repr

/-- How a run ends: normally, by `log.Fatal`, or by a run-time panic. -/
inductive Status
  | ok
  | fatal
  | panicked
deriving DecidableEq, Repr

/-- The result of running a piece of the program: the state it leaves, what it logged
and how it ended. -/
structure Run where
  fs : Root
  log : List Event
  status : Status
deriving DecidableEq, Repr

/-- Sequential composition: the second part runs only when the first ended normally. -/
def Run.andThen (r : Run) (f : Root → Run) : Run :=
  match r.status with
  | .ok => ⟨(f r.fs).fs, r.log ++ (f r.fs).log, (f r.fs).status⟩
  | _ => r

/-- The function `createSnapshotIfNotExists`. -/
def createSnapshotIfNotExists (snapDir : Root) (snapName : String) : Run :=
  match stat snapDir snapName with
  | .error err =>
    if isNotExist err then
      match mkdir snapDir snapName with
      | .error e => ⟨snapDir, [.createFailed snapName e], .ok⟩
      | .ok fs => ⟨fs, [.created snapName], .ok⟩
    else ⟨snapDir, [.statFailed snapName err], .ok⟩
  | .ok _ => ⟨snapDir, [.alreadyExists snapName], .ok⟩

/-- The names collected by the first loop of `rotateSnapshots`: the entries that are
directories and whose name has the prefix. -/
def collectSnaps (entries : List DirEntry) (pfx : String) : List String :=
  (entries.filter (fun e => e.node.isDir && hasPrefix e.name pfx)).map DirEntry.name

/-- The removal loop of `rotateSnapshots`, `for i := 0; i < numToRemove; i++`, with
`remaining = numToRemove - i` iterations to go.  Indexing `snaps[i]` out of range panics. -/
def removeLoop (snaps : List String) : Nat → Nat → Root → List Event → Run
  | 0, _, fs, log => ⟨fs, log, .ok⟩
  | remaining + 1, i, fs, log =>
    match snaps[i]? with
    | none => ⟨fs, log, .panicked⟩
    | some name =>
      match rmdir fs name with
      | .error e => removeLoop snaps remaining (i + 1) fs (log ++ [.removeFailed name e])
      | .ok fs1 => removeLoop snaps remaining (i + 1) fs1 (log ++ [.removed name])

/-- The value of a 64-bit two's-complement result. -/
def wrapInt64 (x : Int) : Int := (x + 2 ^ 63) % 2 ^ 64 - 2 ^ 63

/-- Go's `len(s) - n` on `int`.  The length of a slice is a non-negative `int`, so the
difference overflows only for a negative `n`; it then wraps around. -/
def lenSub (len : Nat) (n : Int) : Int :=
  if n < 0 then wrapInt64 ((len : Int) - n) else (len : Int) - n

/-- The function `rotateSnapshots`.  The retention is a Go `int`. -/
def rotateSnapshots (snapDir : Root) (pfx : String) (retention : Int) : Run :=
  match readDir snapDir with
  | .error e => ⟨snapDir, [.readDirFailed e], .ok⟩
  | .ok entries =>
    let snaps := sortStrings (collectSnaps entries pfx)
    if (snaps.length : Int) > retention then
      let numToRemove : Int := lenSub snaps.length retention
      removeLoop snaps numToRemove.toNat 0 snapDir []
    else ⟨snapDir, [], .ok⟩

/-! ## Labels -/

/-- The calendar fields of `time.Now()` that the layouts use: `Year()`, `Month()`,
`Day()` and `Hour()`. -/
structure Time where
  year : Int
  month : Nat
  day : Nat
  hour : Nat
deriving DecidableEq, Repr

/-- The ranges of the calendar fields of a Go `time.Time`. -/
def Time.Valid (t : Time) : Prop :=
  1 ≤ t.month ∧ t.month ≤ 12 ∧ 1 ≤ t.day ∧ t.day ≤ 31 ∧ t.hour ≤ 23

instance (t : Time) : Decidable t.Valid := by unfold Time.Valid; infer_instance

/-- The byte `'0' + d`. -/
def digitChar (d : Nat) : Char := Char.ofNat (48 + d)

/-- The loop `for u2 := u; u2 > 0; u2 /= 10 { n++ }` of `appendInt`, bounded by `fuel`. -/
def countDigits : Nat → Nat → Nat
  | 0, _ => 0
  | fuel + 1, u => if u = 0 then 0 else countDigits fuel (u / 10) + 1

/-- The number of decimal digits `appendInt` computes (`1` for `0`). -/
def numDigits (u : Nat) : Nat := if u = 0 then 1 else countDigits u u

/-- The `n` least significant decimal digits of `u`, most significant first, as
`appendInt` assembles them from the end of its buffer. -/
def lastDigits : Nat → Nat → List Char
  | 0, _ => []
  | n + 1, u => lastDigits n (u / 10) ++ [digitChar (u % 10)]

/-- The function `appendInt` of Go's package `time`: a minus sign for a negative `x`, then
the decimal digits of `|x|`, padded with zeros on the left to at least `width` digits.
(The two- and four-digit fast paths of the library produce the same bytes.) -/
def appendInt (b : List Char) (x : Int) (width : Nat) : List Char :=
  let b1 := if x < 0 then b ++ ['-'] else b
  let u := x.natAbs
  let n := numDigits u
  b1 ++ List.replicate (width - n) '0' ++ lastDigits n u

/-- The value `now.Format("2006010215")`: year, month, day and hour. -/
def format2006010215 (now : Time) : String :=
  ⟨appendInt (appendInt (appendInt (appendInt [] now.year 4) now.month 2) now.day 2) now.hour 2⟩

/-- The value `now.Format("20060102")`: year, month and day. -/
def format20060102 (now : Time) : String :=
  ⟨appendInt (appendInt (appendInt [] now.year 4) now.month 2) now.day 2⟩

/-- The value `now.Format("200601")`: year and month. -/
def format200601 (now : Time) : String :=
  ⟨appendInt (appendInt [] now.year 4) now.month 2⟩

/-- The label `hourlyName` of `main`. -/
def hourlyName (now : Time) : String := "hourly-" ++ format2006010215 now

/-- The label `dailyName` of `main`. -/
def dailyName (now : Time) : String := "daily-" ++ format20060102 now

/-- The label `monthlyName` of `main`. -/
def monthlyName (now : Time) : String := "monthly-" ++ format200601 now

/-! ## The program -/

/-- The command-line flags `-path`, `-hourly`, `-daily` and `-monthly`. -/
structure Config where
  targetPath : String
  hourlyRet : Int
  dailyRet : Int
  monthlyRet : Int
deriving DecidableEq, Repr

/-- The body of one `if ...Ret > 0` block of `main`: create, then rotate. -/
def snapshotAndRotate (snapDir : Root) (name pfx : String) (retention : Int) : Run :=
  (createSnapshotIfNotExists snapDir name).andThen
    fun d => rotateSnapshots d pfx retention

/-- The function `main`, started on the state `fs` of `<targetPath>/.snap` with the clock
reading `now`. -/
def main (cfg : Config) (now : Time) (fs : Root) : Run :=
  if cfg.targetPath = "" then ⟨fs, [], .fatal⟩
  else
    match mkdirAll fs with
    | .error _ => ⟨fs, [], .fatal⟩
    | .ok snapDir =>
      let r0 : Run := ⟨snapDir, [], .ok⟩
      let r1 := if cfg.hourlyRet > 0 then
          r0.andThen fun d => snapshotAndRotate d (hourlyName now) "hourly-" cfg.hourlyRet
        else r0
      let r2 := if cfg.dailyRet > 0 then
          r1.andThen fun d => snapshotAndRotate d (dailyName now) "daily-" cfg.dailyRet
        else r1
      if cfg.monthlyRet > 0 then
        r2.andThen fun d => snapshotAndRotate d (monthlyName now) "monthly-" cfg.monthlyRet
      else r2

/-! ## Vocabulary of the specification -/

/-- A single path component: the names for which `filepath.Join snapDir name` is the
child `name` of the snapshot directory. -/
def isFileName (s : String) : Bool :=
  !(s == "") && !(s == ".") && !(s == "..") && !s.data.contains '/' &&
    !s.data.contains (Char.ofNat 0)

/-- The names of the directories under the root whose name has the prefix, ascending. -/
def snapNames (fs : Root) (pfx : String) : List String :=
  sortStrings (collectSnaps fs.entries pfx)

/-- The removal candidates of a rotation: the first `count - retention` names, in
ascending order, of the directories that have the prefix. -/
def removalCandidates (es : List DirEntry) (pfx : String) (retention : Int) : List String :=
  (sortStrings (collectSnaps es pfx)).take
    (((sortStrings (collectSnaps es pfx)).length : Int) - retention).toNat

/-- The names the removal loop of `rotateSnapshots` goes through, for any Go `int`. -/
def loopNames (es : List DirEntry) (pfx : String) (retention : Int) : List String :=
  (sortStrings (collectSnaps es pfx)).take
    (if ((sortStrings (collectSnaps es pfx)).length : Int) > retention then
      (lenSub (sortStrings (collectSnaps es pfx)).length retention).toNat
    else 0)

/-- The `r` greatest names of a list of names, ascending. -/
def greatestNames (r : Nat) (names : List String) : List String :=
  (sortStrings names).drop ((sortStrings names).length - r)

/-- The names on which a log shows a call of `syscall.Rmdir`, in order. -/
def rmdirAttempts : List Event → List String
  | [] => []
  | .removed n :: rest => n :: rmdirAttempts rest
  | .removeFailed n _ :: rest => n :: rmdirAttempts rest
  | _ :: rest => rmdirAttempts rest

/-- An entry survives a rotation unless it is an empty directory named by a candidate. -/
def survives (cands : List String) (e : DirEntry) : Bool :=
  !(decide (e.name ∈ cands) && (e.node == Node.dir []))

/-- The state one `if ...Ret > 0` block of `main` leaves. -/
def blockFs (d : Root) (name pfx : String) (retention : Int) : Root :=
  if retention > 0 then (snapshotAndRotate d name pfx retention).fs else d

/-- The three snapshot cadences of `main`. -/
inductive Granularity
  | hourly
  | daily
  | monthly
deriving DecidableEq, Repr

/-- The prefix `main` passes to `rotateSnapshots` for a granularity. -/
def Granularity.pfx : Granularity → String
  | .hourly => "hourly-"
  | .daily => "daily-"
  | .monthly => "monthly-"

/-- The label `main` builds for a granularity from the clock reading. -/
def Granularity.label (now : Time) : Granularity → String
  | .hourly => hourlyName now
  | .daily => dailyName now
  | .monthly => monthlyName now

/-- The retention flag of a granularity. -/
def Granularity.retention (cfg : Config) : Granularity → Int
  | .hourly => cfg.hourlyRet
  | .daily => cfg.dailyRet
  | .monthly => cfg.monthlyRet

/-- The state after the blocks of the listed granularities, in order. -/
def blocksFs (cfg : Config) (now : Time) : List Granularity → Root → Root
  | [], d => d
  | g :: gs, d => blocksFs cfg now gs (blockFs d (g.label now) g.pfx (g.retention cfg))

/-- The entries whose name has the prefix. -/
def withPrefix (pfx : String) (es : List DirEntry) : List DirEntry :=
  es.filter (fun e => hasPrefix e.name pfx)

/-- The number of directories with the prefix whose name is greater than the label. -/
def newerCount (es : List DirEntry) (pfx label : String) : Nat :=
  ((collectSnaps es pfx).filter (fun n => stringLess label n)).length

/-- The entries of a directory after `createSnapshotIfNotExists`. -/
def createdEntries (es : List DirEntry) (name : String) : List DirEntry :=
  if nameTooLong name then es
  else if lookup es name = none then es ++ [⟨name, .dir []⟩] else es

/-- The entries of a directory after one block of `main`. -/
def blockEntries (es : List DirEntry) (name pfx : String) (retention : Int) : List DirEntry :=
  if retention > 0 then
    (createdEntries es name).filter
      (survives (removalCandidates (createdEntries es name) pfx retention))
  else es

/-- The entries of a directory after the blocks of the listed granularities. -/
def blocksEntries (cfg : Config) (now : Time) : List Granularity → List DirEntry → List DirEntry
  | [], es => es
  | g :: gs, es => blocksEntries cfg now gs (blockEntries es (g.label now) g.pfx (g.retention cfg))

/-- Chronological order of month buckets: year, then month. -/
def monthBucketLE (a b : Time) : Prop :=
  a.year < b.year ∨ (a.year = b.year ∧ a.month ≤ b.month)

/-- Chronological order of day buckets: year, month, then day. -/
def dayBucketLE (a b : Time) : Prop :=
  a.year < b.year ∨ (a.year = b.year ∧
    (a.month < b.month ∨ (a.month = b.month ∧ a.day ≤ b.day)))

/-- Chronological order of hour buckets: year, month, day, then hour. -/
def hourBucketLE (a b : Time) : Prop :=
  a.year < b.year ∨ (a.year = b.year ∧
    (a.month < b.month ∨ (a.month = b.month ∧
      (a.day < b.day ∨ (a.day = b.day ∧ a.hour ≤ b.hour)))))

/-- The time bucket of the first time is earlier than or equal to that of the second. -/
def Granularity.bucketLE : Granularity → Time → Time → Prop
  | .hourly => hourBucketLE
  | .daily => dayBucketLE
  | .monthly => monthBucketLE

instance (g : Granularity) (a b : Time) : Decidable (g.bucketLE a b) := by
  cases g <;> simp only [Granularity.bucketLE, hourBucketLE, dayBucketLE, monthBucketLE] <;>
    infer_instance

/-- The years the layout `2006` renders with exactly four digits. -/
def Time.FourDigitYear (t : Time) : Prop := 0 ≤ t.year ∧ t.year ≤ 9999

instance (t : Time) : Decidable t.FourDigitYear := by unfold Time.FourDigitYear; infer_instance


/-! ## The order on names -/

theorem lessChars_irrefl (a : List Char) : lessChars a a = false := by
  induction a with
  | nil => rfl
  | cons x xs ih => simp [lessChars, ih]

theorem lessChars_asymm (a : List Char) :
    ∀ b, lessChars a b = true → lessChars b a = false := by
  induction a with
  | nil => intro b; cases b <;> simp [lessChars]
  | cons x xs ih =>
    intro b
    cases b with
    | nil => simp [lessChars]
    | cons y ys =>
      simp only [lessChars]
      split_ifs with h1 h2 h3
      · exact absurd h1 (lt_asymm h2)
      · simp
      · simp
      · exact ih ys

theorem lessChars_trans (a : List Char) :
    ∀ b c, lessChars a b = true → lessChars b c = true → lessChars a c = true := by
  induction a with
  | nil =>
    intro b c
    cases b <;> cases c <;> simp [lessChars]
  | cons x xs ih =>
    intro b c
    cases b with
    | nil => simp [lessChars]
    | cons y ys =>
      cases c with
      | nil => simp [lessChars]
      | cons z zs =>
        simp only [lessChars]
        intro hab hbc
        by_cases hxy : x < y
        · by_cases hyz : y < z
          · simp [lt_trans hxy hyz]
          · by_cases hzy : z < y
            · simp [hyz, hzy] at hbc
            · have hyz2 : y = z := le_antisymm (not_lt.mp hzy) (not_lt.mp hyz)
              subst hyz2
              simp [hxy]
        · by_cases hyx : y < x
          · simp [hxy, hyx] at hab
          · have hxy2 : x = y := le_antisymm (not_lt.mp hyx) (not_lt.mp hxy)
            subst hxy2
            simp only [hxy, if_false] at hab
            by_cases hxz : x < z
            · simp [hxz]
            · by_cases hzx : z < x
              · simp [hxz, hzx] at hbc
              · simp only [hxz, hzx, if_false] at hbc ⊢
                exact ih ys zs hab hbc

theorem lessChars_connex (a : List Char) :
    ∀ b, lessChars a b = false → lessChars b a = false → a = b := by
  induction a with
  | nil => intro b; cases b <;> simp [lessChars]
  | cons x xs ih =>
    intro b
    cases b with
    | nil => simp [lessChars]
    | cons y ys =>
      simp only [lessChars]
      intro h1 h2
      by_cases hxy : x < y
      · simp [hxy] at h1
      · by_cases hyx : y < x
        · simp [hyx] at h2
        · have hxy2 : x = y := le_antisymm (not_lt.mp hyx) (not_lt.mp hxy)
          subst hxy2
          simp only [hxy, if_false] at h1 h2
          rw [ih ys h1 h2]

theorem strLE_refl (a : String) : StrLE a a := lessChars_irrefl a.data

theorem strLE_total (a b : String) : StrLE a b ∨ StrLE b a := by
  unfold StrLE stringLess
  cases h : lessChars b.data a.data with
  | false => exact Or.inl rfl
  | true => exact Or.inr (lessChars_asymm _ _ h)

theorem strLE_trans {a b c : String} (hab : StrLE a b) (hbc : StrLE b c) : StrLE a c := by
  unfold StrLE stringLess at *
  cases hca : lessChars c.data a.data with
  | false => rfl
  | true =>
    cases hcb : lessChars a.data b.data with
    | false =>
      have : a.data = b.data := lessChars_connex _ _ hcb hab
      rw [this] at hca
      rw [hca] at hbc
      exact absurd hbc (by decide)
    | true =>
      have := lessChars_trans _ _ _ hca hcb
      rw [this] at hbc
      exact absurd hbc (by decide)

theorem strLE_antisymm {a b : String} (hab : StrLE a b) (hba : StrLE b a) : a = b := by
  unfold StrLE stringLess at *
  have h := lessChars_connex _ _ hba hab
  cases a; cases b; simp_all

theorem sortStrings_perm (xs : List String) : (sortStrings xs).Perm xs :=
  List.perm_insertionSort StrLE xs

theorem sortStrings_sorted (xs : List String) : (sortStrings xs).Sorted StrLE := by
  haveI : IsTotal String StrLE := ⟨strLE_total⟩
  haveI : IsTrans String StrLE := ⟨fun _ _ _ => strLE_trans⟩
  exact List.sorted_insertionSort StrLE xs

theorem sortStrings_eq_of_perm {xs ys : List String} (h : xs.Perm ys) :
    sortStrings xs = sortStrings ys := by
  haveI : IsAntisymm String StrLE := ⟨fun _ _ => strLE_antisymm⟩
  exact List.eq_of_perm_of_sorted
    (((sortStrings_perm xs).trans h).trans (sortStrings_perm ys).symm)
    (sortStrings_sorted xs) (sortStrings_sorted ys)

theorem sortStrings_eq_self {xs : List String} (h : xs.Sorted StrLE) : sortStrings xs = xs := by
  haveI : IsAntisymm String StrLE := ⟨fun _ _ => strLE_antisymm⟩
  exact List.eq_of_perm_of_sorted (sortStrings_perm xs) (sortStrings_sorted xs) h

theorem sortStrings_nodup {xs : List String} (h : xs.Nodup) : (sortStrings xs).Nodup :=
  (sortStrings_perm xs).nodup_iff.mpr h

theorem mem_sortStrings {xs : List String} {x : String} : x ∈ sortStrings xs ↔ x ∈ xs :=
  (sortStrings_perm xs).mem_iff

theorem length_sortStrings (xs : List String) : (sortStrings xs).length = xs.length :=
  (sortStrings_perm xs).length_eq


/-! ## System calls on a directory -/

theorem lookup_eq_none {es : List DirEntry} {name : String} :
    lookup es name = none ↔ ∀ e ∈ es, e.name ≠ name := by
  simp [lookup, List.find?_eq_none]

theorem lookup_eq_some {es : List DirEntry} {name : String} {n : Node}
    (h : lookup es name = some n) : (⟨name, n⟩ : DirEntry) ∈ es := by
  unfold lookup at h
  cases hf : es.find? (fun e => e.name == name) with
  | none => simp [hf] at h
  | some e =>
    simp [hf] at h
    have h1 := List.find?_some hf
    have h2 := List.mem_of_find?_eq_some hf
    simp at h1
    cases e
    simp_all

theorem lookup_of_mem {es : List DirEntry} (hnd : (es.map DirEntry.name).Nodup)
    {e : DirEntry} (he : e ∈ es) : lookup es e.name = some e.node := by
  cases h : lookup es e.name with
  | none => exact absurd rfl (lookup_eq_none.mp h e he)
  | some n =>
    have hm := lookup_eq_some h
    have := List.inj_on_of_nodup_map hnd hm he rfl
    rw [← this]

theorem lookup_append_new {es : List DirEntry} {name : String} (n : Node)
    (h : lookup es name = none) : lookup (es ++ [⟨name, n⟩]) name = some n := by
  unfold lookup at *
  rw [List.find?_append]
  cases hf : es.find? (fun e => e.name == name) with
  | none => simp
  | some e => simp [hf] at h

theorem nodup_filter_names {es : List DirEntry} (p : DirEntry → Bool)
    (hnd : (es.map DirEntry.name).Nodup) : ((es.filter p).map DirEntry.name).Nodup :=
  hnd.sublist ((List.filter_sublist es).map _)

/-- The state `syscall.Rmdir` leaves, whether it succeeds or fails. -/
theorem rmdir_effect {es : List DirEntry} (hnd : (es.map DirEntry.name).Nodup)
    (name : String) :
    (∀ fs1, rmdir (.dir es) name = .ok fs1 → fs1 = .dir (es.filter (survives [name]))) ∧
    (∀ e, rmdir (.dir es) name = .error e → es.filter (survives [name]) = es) := by
  cases h : lookup es name with
  | none =>
    refine ⟨by simp [rmdir, h], fun _ _ => ?_⟩
    rw [List.filter_eq_self]
    intro e he
    have := lookup_eq_none.mp h e he
    simp [survives, this]
  | some n =>
    have hm := lookup_eq_some h
    have huniq : ∀ e ∈ es, e.name = name → e.node = n := by
      intro e he hn
      have := List.inj_on_of_nodup_map hnd he hm hn
      rw [this]
    have hkeep : n ≠ Node.dir [] → es.filter (survives [name]) = es := by
      intro hne
      rw [List.filter_eq_self]
      intro e he
      by_cases hn : e.name = name
      · simp [survives, huniq e he hn, hne]
      · simp [survives, hn]
    cases n with
    | file => exact ⟨by simp [rmdir, h], fun _ _ => hkeep (by simp)⟩
    | link d => exact ⟨by simp [rmdir, h], fun _ _ => hkeep (by simp)⟩
    | dir cs =>
      cases cs with
      | nil =>
        refine ⟨?_, by simp [rmdir, h]⟩
        intro fs1 hfs
        simp only [rmdir, h, Except.ok.injEq] at hfs
        rw [← hfs]
        congr 1
        apply List.filter_congr
        intro e he
        by_cases hn : e.name = name
        · simp [survives, huniq e he hn, hn]
        · simp [survives, hn]
      | cons c cs => exact ⟨by simp [rmdir, h], fun _ _ => hkeep (by simp)⟩

theorem survives_nil (e : DirEntry) : survives [] e = true := by simp [survives]

theorem filter_survives_nil (es : List DirEntry) : es.filter (survives []) = es := by
  rw [List.filter_eq_self]
  intro e _
  exact survives_nil e

theorem survives_cons (name : String) (cands : List String) (e : DirEntry) :
    survives (name :: cands) e = (survives [name] e && survives cands e) := by
  by_cases h1 : e.name = name <;> by_cases h2 : e.name ∈ cands <;>
    cases h3 : (e.node == Node.dir []) <;> simp [survives, h1, h2, h3]

/-- The state the removal loop leaves: the empty directories named by the candidates it
goes through are gone, everything else is in place. -/
theorem removeLoop_fs (snaps : List String) :
    ∀ (n i : Nat) (es : List DirEntry) (log : List Event),
      (es.map DirEntry.name).Nodup →
      (removeLoop snaps n i (.dir es) log).fs
        = .dir (es.filter (survives ((snaps.drop i).take n))) := by
  intro n
  induction n with
  | zero =>
    intro i es log _
    simp [removeLoop, filter_survives_nil]
  | succ n ih =>
    intro i es log hnd
    unfold removeLoop
    cases hi : snaps[i]? with
    | none =>
      have : snaps.drop i = [] := by
        rw [List.drop_eq_nil_iff]
        exact List.getElem?_eq_none_iff.mp hi
      simp [this, filter_survives_nil]
    | some name =>
      have hlt : i < snaps.length := by
        by_contra hcon
        rw [List.getElem?_eq_none (by omega)] at hi
        cases hi
      have hdrop : snaps.drop i = name :: snaps.drop (i + 1) := by
        rw [List.drop_eq_getElem_cons hlt]
        congr 1
        rw [List.getElem?_eq_getElem hlt] at hi
        exact Option.some.inj hi
      have heff := rmdir_effect hnd name
      have hcomb : ∀ es1 : List DirEntry,
          (es1.filter (survives [name])).filter (survives ((snaps.drop (i + 1)).take n))
            = es1.filter (survives ((snaps.drop i).take (n + 1))) := by
        intro es1
        rw [List.filter_filter, hdrop, List.take_succ_cons]
        apply List.filter_congr
        intro e _
        rw [survives_cons name ((snaps.drop (i + 1)).take n) e]
        exact Bool.and_comm _ _
      cases hr : rmdir (.dir es) name with
      | error e =>
        simp only [hr]
        rw [ih (i + 1) es _ hnd, ← hcomb, heff.2 e hr]
      | ok fs1 =>
        simp only [hr]
        rw [heff.1 fs1 hr, ih (i + 1) _ _ (nodup_filter_names _ hnd), hcomb]

/-- The removal loop calls `syscall.Rmdir` once on each candidate it goes through. -/
theorem removeLoop_attempts (snaps : List String) :
    ∀ (n i : Nat) (fs : Root) (log : List Event),
      rmdirAttempts (removeLoop snaps n i fs log).log
        = rmdirAttempts log ++ (snaps.drop i).take n := by
  have happ : ∀ (l : List Event) (ev : Event) (name : String),
      rmdirAttempts [ev] = [name] → rmdirAttempts (l ++ [ev]) = rmdirAttempts l ++ [name] := by
    intro l ev name hev
    induction l with
    | nil => simpa using hev
    | cons x xs ihx => cases x <;> simp [rmdirAttempts, ihx]
  intro n
  induction n with
  | zero => intro i fs log; simp [removeLoop]
  | succ n ih =>
    intro i fs log
    unfold removeLoop
    cases hi : snaps[i]? with
    | none =>
      have : snaps.drop i = [] := by
        rw [List.drop_eq_nil_iff]
        exact List.getElem?_eq_none_iff.mp hi
      simp [this]
    | some name =>
      have hlt : i < snaps.length := by
        by_contra hcon
        rw [List.getElem?_eq_none (by omega)] at hi
        cases hi
      have hdrop : snaps.drop i = name :: snaps.drop (i + 1) := by
        rw [List.drop_eq_getElem_cons hlt]
        congr 1
        rw [List.getElem?_eq_getElem hlt] at hi
        exact Option.some.inj hi
      cases hr : rmdir fs name with
      | error e =>
        simp only [hr]
        rw [ih, happ log _ name (by simp [rmdirAttempts]), hdrop]
        simp
      | ok fs1 =>
        simp only [hr]
        rw [ih, happ log _ name (by simp [rmdirAttempts]), hdrop]
        simp

/-- The removal loop ends normally when all its indices are in range. -/
theorem removeLoop_status (snaps : List String) :
    ∀ (n i : Nat) (fs : Root) (log : List Event), i + n ≤ snaps.length →
      (removeLoop snaps n i fs log).status = .ok := by
  intro n
  induction n with
  | zero => intro i fs log _; simp [removeLoop]
  | succ n ih =>
    intro i fs log hle
    unfold removeLoop
    have hlt : i < snaps.length := by omega
    rw [List.getElem?_eq_getElem hlt]
    simp only []
    cases hr : rmdir fs snaps[i] with
    | error e => simp only [hr]; exact ih (i + 1) _ _ (by omega)
    | ok fs1 => simp only [hr]; exact ih (i + 1) _ _ (by omega)

/-! ## The rotation as a whole -/

theorem collectSnaps_perm {es es1 : List DirEntry} (h : es.Perm es1) (pfx : String) :
    (collectSnaps es pfx).Perm (collectSnaps es1 pfx) :=
  (h.filter _).map _

/-- Listing in file-name order, as `os.ReadDir` does, leaves the sorted names unchanged. -/
theorem readDir_snaps (es : List DirEntry) (pfx : String) :
    sortStrings (collectSnaps (List.insertionSort (fun a b => StrLE a.name b.name) es) pfx)
      = sortStrings (collectSnaps es pfx) :=
  sortStrings_eq_of_perm (collectSnaps_perm (List.perm_insertionSort _ es) pfx)

theorem mem_collectSnaps {es : List DirEntry} {pfx name : String} :
    name ∈ collectSnaps es pfx ↔
      ∃ e ∈ es, (e.node.isDir = true ∧ hasPrefix e.name pfx = true) ∧ e.name = name := by
  simp only [collectSnaps, List.mem_map, List.mem_filter, Bool.and_eq_true]
  constructor
  · rintro ⟨e, ⟨he, hp⟩, hn⟩
    exact ⟨e, he, hp, hn⟩
  · rintro ⟨e, he, hp, hn⟩
    exact ⟨e, ⟨he, hp⟩, hn⟩

theorem collectSnaps_nodup {es : List DirEntry} (hnd : (es.map DirEntry.name).Nodup)
    (pfx : String) : (collectSnaps es pfx).Nodup :=
  nodup_filter_names _ hnd

/-- A rotation of a directory is its removal loop over the sorted names. -/
theorem rotateSnapshots_dir (es : List DirEntry) (pfx : String) (retention : Int) :
    rotateSnapshots (.dir es) pfx retention
      = removeLoop (sortStrings (collectSnaps es pfx))
          (if ((sortStrings (collectSnaps es pfx)).length : Int) > retention then
            (lenSub (sortStrings (collectSnaps es pfx)).length retention).toNat
          else 0) 0 (.dir es) [] := by
  simp only [rotateSnapshots, readDir, readDir_snaps]
  split_ifs with h
  · rfl
  · rfl

theorem lenSub_nonneg (len : Nat) (retention : Int) (hret : 0 ≤ retention) :
    lenSub len retention = (len : Int) - retention := by
  unfold lenSub
  rw [if_neg (by omega)]

/-- With a retention that is not negative the loop goes through the removal candidates. -/
theorem loopNames_eq (es : List DirEntry) (pfx : String) (retention : Int)
    (hret : 0 ≤ retention) : loopNames es pfx retention = removalCandidates es pfx retention := by
  unfold loopNames removalCandidates
  rw [lenSub_nonneg _ _ hret]
  congr 1
  split_ifs with h
  · rfl
  · omega

theorem rotateSnapshots_fs_any (es : List DirEntry) (pfx : String) (retention : Int)
    (hnd : (es.map DirEntry.name).Nodup) :
    (rotateSnapshots (.dir es) pfx retention).fs
      = .dir (es.filter (survives (loopNames es pfx retention))) := by
  rw [rotateSnapshots_dir, removeLoop_fs _ _ _ _ _ hnd]
  simp [loopNames]

theorem rotateSnapshots_fs (es : List DirEntry) (pfx : String) (retention : Int)
    (hnd : (es.map DirEntry.name).Nodup) (hret : 0 ≤ retention) :
    (rotateSnapshots (.dir es) pfx retention).fs
      = .dir (es.filter (survives (removalCandidates es pfx retention))) := by
  rw [rotateSnapshots_fs_any es pfx retention hnd, loopNames_eq es pfx retention hret]

theorem rotateSnapshots_attempts (es : List DirEntry) (pfx : String) (retention : Int)
    (hret : 0 ≤ retention) :
    rmdirAttempts (rotateSnapshots (.dir es) pfx retention).log
      = removalCandidates es pfx retention := by
  rw [rotateSnapshots_dir, removeLoop_attempts, ← loopNames_eq es pfx retention hret]
  simp [loopNames, rmdirAttempts]

theorem rotateSnapshots_status (fs : Root) (pfx : String) (retention : Int)
    (hret : 0 ≤ retention) : (rotateSnapshots fs pfx retention).status = .ok := by
  cases fs with
  | missing => rfl
  | notDir => rfl
  | dir es =>
    rw [rotateSnapshots_dir]
    apply removeLoop_status
    rw [lenSub_nonneg _ _ hret]
    split_ifs <;> omega

theorem mem_loopNames {es : List DirEntry} {pfx name : String} {retention : Int}
    (h : name ∈ loopNames es pfx retention) : name ∈ collectSnaps es pfx :=
  mem_sortStrings.mp (List.mem_of_mem_take h)

theorem mem_removalCandidates {es : List DirEntry} {pfx name : String} {retention : Int}
    (h : name ∈ removalCandidates es pfx retention) : name ∈ collectSnaps es pfx :=
  mem_sortStrings.mp (List.mem_of_mem_take h)

theorem removalCandidates_nodup {es : List DirEntry} (hnd : (es.map DirEntry.name).Nodup)
    (pfx : String) (retention : Int) : (removalCandidates es pfx retention).Nodup :=
  (sortStrings_nodup (collectSnaps_nodup hnd pfx)).sublist (List.take_sublist _ _)

/-- An entry that is not a directory with the prefix survives the removal loop. -/
theorem survives_of_not_snap {es : List DirEntry} {pfx : String} {retention : Int}
    {e : DirEntry} (he : e ∈ es) (hnd : (es.map DirEntry.name).Nodup)
    (h : e.node.isDir = false ∨ hasPrefix e.name pfx = false) :
    survives (loopNames es pfx retention) e = true := by
  rcases h with h | h
  · have : e.node ≠ Node.dir [] := by
      intro hc
      rw [hc] at h
      simp [Node.isDir] at h
    simp [survives, this]
  · have : e.name ∉ loopNames es pfx retention := by
      intro hc
      obtain ⟨e1, he1, ⟨_, hp⟩, hn⟩ := mem_collectSnaps.mp (mem_loopNames hc)
      have := List.inj_on_of_nodup_map hnd he1 he hn
      rw [this, h] at hp
      cases hp
    simp [survives, this]

/-! ## Prefixes -/

theorem hasPrefix_iff {s pfx : String} :
    hasPrefix s pfx = true ↔ ∃ t, s.data = pfx.data ++ t := by
  unfold hasPrefix
  constructor
  · intro h
    simp only [Bool.and_eq_true, decide_eq_true_eq, beq_iff_eq] at h
    refine ⟨s.data.drop pfx.data.length, ?_⟩
    conv_lhs => rw [← List.take_append_drop pfx.data.length s.data]
    rw [h.2]
  · rintro ⟨t, ht⟩
    simp [ht]

theorem hasPrefix_append (pfx rest : String) : hasPrefix (pfx ++ rest) pfx = true :=
  hasPrefix_iff.mpr ⟨rest.data, by simp⟩

/-- The three prefixes of `main`. -/
theorem prefixes_disjoint {s p q : String}
    (hp : p ∈ ["hourly-", "daily-", "monthly-"]) (hq : q ∈ ["hourly-", "daily-", "monthly-"])
    (hsp : hasPrefix s p = true) (hsq : hasPrefix s q = true) : p = q := by
  obtain ⟨t, ht⟩ := hasPrefix_iff.mp hsp
  obtain ⟨u, hu⟩ := hasPrefix_iff.mp hsq
  rw [ht] at hu
  simp only [List.mem_cons, List.mem_singleton, List.not_mem_nil, or_false] at hp hq
  rcases hp with rfl | rfl | rfl <;> rcases hq with rfl | rfl | rfl <;>
    first
    | rfl
    | (exfalso; simp at hu)

/-! ## Creation and the blocks of `main` -/

theorem createSnapshotIfNotExists_status (fs : Root) (name : String) :
    (createSnapshotIfNotExists fs name).status = .ok := by
  unfold createSnapshotIfNotExists
  repeat' split
  all_goals rfl

/-- What `createSnapshotIfNotExists` does to a directory. -/
theorem createSnapshotIfNotExists_dir (es : List DirEntry) (name : String) :
    (nameTooLong name = true →
      createSnapshotIfNotExists (.dir es) name
        = ⟨.dir es, [.statFailed name .ENAMETOOLONG], .ok⟩) ∧
    (nameTooLong name = false → lookup es name = none →
      createSnapshotIfNotExists (.dir es) name
        = ⟨.dir (es ++ [⟨name, .dir []⟩]), [.created name], .ok⟩) ∧
    (nameTooLong name = false → lookup es name = some (.link true) →
      createSnapshotIfNotExists (.dir es) name
        = ⟨.dir es, [.createFailed name .EEXIST], .ok⟩) ∧
    (nameTooLong name = false → ∀ n, lookup es name = some n → n ≠ .link true →
      createSnapshotIfNotExists (.dir es) name = ⟨.dir es, [.alreadyExists name], .ok⟩) := by
  refine ⟨?_, ?_, ?_, ?_⟩
  · intro hlong
    simp [createSnapshotIfNotExists, stat, hlong, isNotExist]
  · intro hlong h
    simp [createSnapshotIfNotExists, stat, mkdir, hlong, h, isNotExist]
  · intro hlong h
    simp [createSnapshotIfNotExists, stat, mkdir, hlong, h, isNotExist]
  · intro hlong n h hn
    cases n with
    | file => simp [createSnapshotIfNotExists, stat, hlong, h]
    | link d =>
      cases d with
      | true => exact absurd rfl hn
      | false => simp [createSnapshotIfNotExists, stat, hlong, h]
    | dir cs => simp [createSnapshotIfNotExists, stat, hlong, h]

/-- The state `createSnapshotIfNotExists` leaves in a directory. -/
theorem createSnapshotIfNotExists_fs (es : List DirEntry) (name : String) :
    (createSnapshotIfNotExists (.dir es) name).fs = .dir (createdEntries es name) := by
  have h := createSnapshotIfNotExists_dir es name
  unfold createdEntries
  cases hlong : nameTooLong name with
  | true => rw [h.1 hlong]; simp
  | false =>
    cases hl : lookup es name with
    | none => rw [h.2.1 hlong hl]; simp
    | some n =>
      by_cases hn : n = .link true
      · subst hn
        rw [h.2.2.1 hlong hl]; simp
      · rw [h.2.2.2 hlong n hl hn]; simp

theorem createSnapshotIfNotExists_not_dir (fs : Root) (name : String)
    (h : ∀ es, fs ≠ .dir es) : (createSnapshotIfNotExists fs name).fs = fs := by
  cases fs with
  | missing => rfl
  | notDir => rfl
  | dir es => exact absurd rfl (h es)

theorem rotateSnapshots_not_dir (fs : Root) (pfx : String) (retention : Int)
    (h : ∀ es, fs ≠ .dir es) : (rotateSnapshots fs pfx retention).fs = fs := by
  cases fs with
  | missing => rfl
  | notDir => rfl
  | dir es => exact absurd rfl (h es)

theorem andThen_fs (r : Run) (f : Root → Run) (h : r.status = .ok) :
    (r.andThen f).fs = (f r.fs).fs ∧ (r.andThen f).status = (f r.fs).status := by
  simp [Run.andThen, h]

theorem snapshotAndRotate_fs (d : Root) (name pfx : String) (retention : Int) :
    (snapshotAndRotate d name pfx retention).fs
      = (rotateSnapshots (createSnapshotIfNotExists d name).fs pfx retention).fs :=
  (andThen_fs _ _ (createSnapshotIfNotExists_status d name)).1

theorem snapshotAndRotate_status (d : Root) (name pfx : String) (retention : Int)
    (hret : 0 ≤ retention) : (snapshotAndRotate d name pfx retention).status = .ok := by
  unfold snapshotAndRotate
  rw [(andThen_fs _ _ (createSnapshotIfNotExists_status d name)).2]
  exact rotateSnapshots_status _ _ _ hret

/-- The shape of a run of `main` that gets past its two fatal checks. -/
theorem main_ok (cfg : Config) (now : Time) (fs d : Root)
    (hpath : cfg.targetPath ≠ "") (hmk : mkdirAll fs = .ok d) :
    (main cfg now fs).status = .ok ∧
    (main cfg now fs).fs
      = blockFs (blockFs (blockFs d (hourlyName now) "hourly-" cfg.hourlyRet)
          (dailyName now) "daily-" cfg.dailyRet) (monthlyName now) "monthly-" cfg.monthlyRet := by
  have step : ∀ (r : Run) (name pfx : String) (ret : Int), r.status = .ok →
      (if ret > 0 then r.andThen fun d => snapshotAndRotate d name pfx ret else r).status = .ok ∧
      (if ret > 0 then r.andThen fun d => snapshotAndRotate d name pfx ret else r).fs
        = blockFs r.fs name pfx ret := by
    intro r name pfx ret hr
    unfold blockFs
    split_ifs with h
    · have := andThen_fs r (fun d => snapshotAndRotate d name pfx ret) hr
      exact ⟨this.2.trans (snapshotAndRotate_status _ _ _ _ (by omega)), this.1⟩
    · exact ⟨hr, rfl⟩
  simp only [main, hpath, if_false, hmk]
  have h1 := step ⟨d, [], .ok⟩ (hourlyName now) "hourly-" cfg.hourlyRet rfl
  have h2 := step _ (dailyName now) "daily-" cfg.dailyRet h1.1
  have h3 := step _ (monthlyName now) "monthly-" cfg.monthlyRet h2.1
  refine ⟨h3.1, ?_⟩
  rw [h3.2, h2.2, h1.2]

/-- A run of `main` that ends in `log.Fatal` has not touched the snapshot directory. -/
theorem main_fatal (cfg : Config) (now : Time) (fs : Root)
    (h : cfg.targetPath = "" ∨ mkdirAll fs = .error .ENOTDIR) :
    main cfg now fs = ⟨fs, [], .fatal⟩ := by
  rcases h with h | h
  · simp [main, h]
  · by_cases hp : cfg.targetPath = ""
    · simp [main, hp]
    · simp only [main, hp, if_false, h]

theorem mkdirAll_cases (fs : Root) :
    (fs = .notDir ∧ mkdirAll fs = .error .ENOTDIR) ∨
    (fs = .missing ∧ mkdirAll fs = .ok (.dir [])) ∨
    (∃ es, fs = .dir es ∧ mkdirAll fs = .ok (.dir es)) := by
  cases fs with
  | missing => exact Or.inr (Or.inl ⟨rfl, rfl⟩)
  | notDir => exact Or.inl ⟨rfl, rfl⟩
  | dir es => exact Or.inr (Or.inr ⟨es, rfl, rfl⟩)

/-! ## The survivors of a rotation -/

theorem filter_not_mem_left {a b : List String} (hnd : (a ++ b).Nodup) :
    (a ++ b).filter (fun x => decide (x ∉ a)) = b := by
  have hdisj : ∀ x ∈ b, x ∉ a := fun x hx hx2 => (List.nodup_append.mp hnd).2.2 hx2 hx
  have h1 : a.filter (fun x => decide (x ∉ a)) = [] := by
    rw [List.filter_eq_nil_iff]
    intro x hx
    simp [hx]
  have h2 : b.filter (fun x => decide (x ∉ a)) = b := by
    rw [List.filter_eq_self]
    intro x hx
    simp [hdisj x hx]
  rw [List.filter_append, h1, h2, List.nil_append]

theorem filter_not_mem_take {s : List String} (hnd : s.Nodup) (k : Nat) :
    s.filter (fun x => decide (x ∉ s.take k)) = s.drop k := by
  have hsplit : s.take k ++ s.drop k = s := List.take_append_drop k s
  have := @filter_not_mem_left (s.take k) (s.drop k) (by rw [hsplit]; exact hnd)
  rw [hsplit] at this
  exact this

theorem sortStrings_filter (q : String → Bool) (l : List String) :
    sortStrings (l.filter q) = (sortStrings l).filter q := by
  haveI : IsAntisymm String StrLE := ⟨fun _ _ => strLE_antisymm⟩
  exact List.eq_of_perm_of_sorted
    ((sortStrings_perm _).trans ((sortStrings_perm l).filter q).symm)
    (sortStrings_sorted _) ((sortStrings_sorted l).filter q)

/-- In a sorted list without repetition the earlier names are less than the later ones. -/
theorem take_lt_drop {xs : List String} (hnd : xs.Nodup) (k : Nat)
    {x y : String} (hx : x ∈ (sortStrings xs).take k) (hy : y ∈ (sortStrings xs).drop k) :
    stringLess x y = true := by
  have hs := sortStrings_sorted xs
  have hn := sortStrings_nodup hnd
  rw [← List.take_append_drop k (sortStrings xs)] at hs hn
  have hle : StrLE x y := (List.pairwise_append.mp hs).2.2 x hx y hy
  have hne : x ≠ y := fun h => (List.nodup_append.mp hn).2.2 hx (h ▸ hy)
  cases hxy : stringLess x y with
  | true => rfl
  | false => exact absurd (strLE_antisymm hle hxy) hne

theorem collectSnaps_filter_survives {es : List DirEntry} {pfx : String} (cands : List String)
    (hempty : ∀ e ∈ es, e.node.isDir = true → hasPrefix e.name pfx = true → e.node = .dir []) :
    collectSnaps (es.filter (survives cands)) pfx
      = (collectSnaps es pfx).filter (fun x => decide (x ∉ cands)) := by
  unfold collectSnaps
  rw [List.filter_map, List.filter_filter, List.filter_filter]
  congr 1
  apply List.filter_congr
  intro e he
  cases hm : (e.node.isDir && hasPrefix e.name pfx) with
  | false => simp
  | true =>
    simp only [Bool.and_eq_true] at hm
    have := hempty e he hm.1 hm.2
    by_cases hc : e.name ∈ cands <;> simp [survives, this, hc]

/-- The names a rotation leaves, when the directories that carry the prefix are empty. -/
theorem rotateSnapshots_snapNames (es : List DirEntry) (pfx : String) (retention : Int)
    (hnd : (es.map DirEntry.name).Nodup) (hret : 0 ≤ retention)
    (hempty : ∀ e ∈ es, e.node.isDir = true → hasPrefix e.name pfx = true → e.node = .dir []) :
    snapNames (rotateSnapshots (.dir es) pfx retention).fs pfx
      = (sortStrings (collectSnaps es pfx)).drop
          (((sortStrings (collectSnaps es pfx)).length : Int) - retention).toNat := by
  rw [rotateSnapshots_fs es pfx retention hnd hret]
  simp only [snapNames, Root.entries]
  rw [collectSnaps_filter_survives _ hempty, sortStrings_filter]
  exact filter_not_mem_take (sortStrings_nodup (collectSnaps_nodup hnd pfx)) _

theorem greatestNames_eq (names : List String) (retention : Int) (hret : 0 ≤ retention) :
    greatestNames retention.toNat names
      = (sortStrings names).drop (((sortStrings names).length : Int) - retention).toNat := by
  unfold greatestNames
  congr 1
  omega

theorem greatestNames_perm {xs ys : List String} (h : xs.Perm ys) (r : Nat) :
    greatestNames r xs = greatestNames r ys := by
  unfold greatestNames
  rw [sortStrings_eq_of_perm h]

/-! ## One block of `main` -/

theorem lookup_withPrefix {es : List DirEntry} {pfx name : String}
    (h : hasPrefix name pfx = true) : lookup (withPrefix pfx es) name = lookup es name := by
  unfold lookup withPrefix
  induction es with
  | nil => rfl
  | cons e es ih =>
    by_cases he : e.name = name
    · have hp : hasPrefix e.name pfx = true := he ▸ h
      rw [List.filter_cons, if_pos hp]
      simp [List.find?_cons, he]
    · have hb : (e.name == name) = false := by simpa using he
      by_cases hp : hasPrefix e.name pfx = true
      · rw [List.filter_cons, if_pos hp]
        simp only [List.find?_cons, hb]
        exact ih
      · rw [List.filter_cons, if_neg hp]
        simp only [List.find?_cons, hb]
        exact ih

theorem collectSnaps_withPrefix (es : List DirEntry) (pfx : String) :
    collectSnaps (withPrefix pfx es) pfx = collectSnaps es pfx := by
  unfold collectSnaps withPrefix
  rw [List.filter_filter]
  congr 1
  apply List.filter_congr
  intro e _
  cases hasPrefix e.name pfx <;> simp

theorem mem_withPrefix {es : List DirEntry} {pfx : String} {e : DirEntry} :
    e ∈ withPrefix pfx es ↔ e ∈ es ∧ hasPrefix e.name pfx = true := by
  simp [withPrefix]

theorem collectSnaps_append_new (es : List DirEntry) (pfx name : String)
    (h : hasPrefix name pfx = true) :
    collectSnaps (es ++ [⟨name, .dir []⟩]) pfx = collectSnaps es pfx ++ [name] := by
  simp [collectSnaps, List.filter_append, List.filter_cons, h, Node.isDir]

theorem createdEntries_nodup {es : List DirEntry} (hnd : (es.map DirEntry.name).Nodup)
    (name : String) : ((createdEntries es name).map DirEntry.name).Nodup := by
  unfold createdEntries
  split_ifs with hlong h
  · exact hnd
  · rw [List.map_append, List.nodup_append]
    refine ⟨hnd, by simp, ?_⟩
    intro x hx hx2
    simp only [List.map_cons, List.map_nil, List.mem_singleton] at hx2
    obtain ⟨e, he, hn⟩ := List.mem_map.mp hx
    exact lookup_eq_none.mp h e he (hn.trans hx2)
  · exact hnd

theorem blockEntries_nodup {es : List DirEntry} (hnd : (es.map DirEntry.name).Nodup)
    (name pfx : String) (retention : Int) :
    ((blockEntries es name pfx retention).map DirEntry.name).Nodup := by
  unfold blockEntries
  split_ifs
  · exact nodup_filter_names _ (createdEntries_nodup hnd name)
  · exact hnd

theorem blockFs_dir {es : List DirEntry} (hnd : (es.map DirEntry.name).Nodup)
    (name pfx : String) (retention : Int) :
    blockFs (.dir es) name pfx retention = .dir (blockEntries es name pfx retention) := by
  unfold blockFs blockEntries
  split_ifs with hr
  · rw [snapshotAndRotate_fs, createSnapshotIfNotExists_fs]
    exact rotateSnapshots_fs _ _ _ (createdEntries_nodup hnd name) (by omega)
  · rfl

theorem blocksFs_dir (cfg : Config) (now : Time) (gs : List Granularity) :
    ∀ es : List DirEntry, (es.map DirEntry.name).Nodup →
      blocksFs cfg now gs (.dir es) = .dir (blocksEntries cfg now gs es) ∧
      ((blocksEntries cfg now gs es).map DirEntry.name).Nodup := by
  induction gs with
  | nil => intro es hnd; exact ⟨rfl, hnd⟩
  | cons g gs ih =>
    intro es hnd
    simp only [blocksFs, blocksEntries]
    rw [blockFs_dir hnd]
    exact ih _ (blockEntries_nodup hnd _ _ _)

/-- A block leaves the entries of the other prefixes as they are. -/
theorem withPrefix_blockEntries (es : List DirEntry) (name pfx other : String)
    (retention : Int) (hname : hasPrefix name pfx = true)
    (hdis : ∀ s, hasPrefix s pfx = true → hasPrefix s other = false) :
    withPrefix other (blockEntries es name pfx retention) = withPrefix other es := by
  unfold blockEntries
  split_ifs with hr
  · have h1 : withPrefix other (createdEntries es name) = withPrefix other es := by
      unfold createdEntries
      split_ifs
      · rfl
      · simp [withPrefix, List.filter_append, List.filter_cons, hdis name hname]
      · rfl
    rw [← h1]
    unfold withPrefix
    rw [List.filter_filter]
    apply List.filter_congr
    intro e _
    cases hp : hasPrefix e.name other with
    | false => simp
    | true =>
      have : e.name ∉ removalCandidates (createdEntries es name) pfx retention := by
        intro hc
        obtain ⟨e1, _, ⟨_, hp1⟩, hn⟩ := mem_collectSnaps.mp (mem_removalCandidates hc)
        rw [hn] at hp1
        rw [hdis _ hp1] at hp
        cases hp
      simp [survives, this]
  · rfl

/-- A block adds at most the directory of its label, and only when the name is free. -/
theorem mem_blockEntries {es : List DirEntry} {name pfx : String} {retention : Int}
    {e : DirEntry} (h : e ∈ blockEntries es name pfx retention) :
    e ∈ es ∨ (0 < retention ∧ lookup es name = none ∧ e = ⟨name, .dir []⟩) := by
  unfold blockEntries at h
  split_ifs at h with hr
  · have h1 := (List.mem_filter.mp h).1
    unfold createdEntries at h1
    split_ifs at h1 with hlong hl
    · exact Or.inl h1
    · rcases List.mem_append.mp h1 with h2 | h2
      · exact Or.inl h2
      · exact Or.inr ⟨hr, hl, by simpa using h2⟩
    · exact Or.inl h1
  · exact Or.inl h

theorem newerCount_createdEntries (es : List DirEntry) (pfx name : String)
    (hname : hasPrefix name pfx = true) :
    newerCount (createdEntries es name) pfx name = newerCount es pfx name := by
  unfold createdEntries newerCount
  split_ifs
  · rfl
  · rw [collectSnaps_append_new es pfx name hname, List.filter_append]
    have : stringLess name name = false := lessChars_irrefl name.data
    simp [List.filter_cons, this]
  · rfl

/-- A name among the removal candidates has at least `retention` greater names. -/
theorem newerCount_of_candidate {es : List DirEntry} {pfx name : String} {retention : Int}
    (hnd : (es.map DirEntry.name).Nodup) (hret : 0 ≤ retention)
    (h : name ∈ removalCandidates es pfx retention) :
    retention ≤ (newerCount es pfx name : Int) := by
  unfold removalCandidates at h
  unfold newerCount
  generalize hk : (((sortStrings (collectSnaps es pfx)).length : Int) - retention).toNat = k at h
  have hperm : ((collectSnaps es pfx).filter (fun n => stringLess name n)).length
      = ((sortStrings (collectSnaps es pfx)).filter (fun n => stringLess name n)).length :=
    ((sortStrings_perm _).filter _).length_eq.symm
  rw [hperm]
  have hkpos : 0 < k := by
    cases k with
    | zero => simp at h
    | succ k => omega
  have hdrop : ((sortStrings (collectSnaps es pfx)).drop k).filter (fun n => stringLess name n)
      = (sortStrings (collectSnaps es pfx)).drop k := by
    rw [List.filter_eq_self]
    intro y hy
    exact take_lt_drop (collectSnaps_nodup hnd pfx) k h hy
  have hlen : ((sortStrings (collectSnaps es pfx)).drop k).length
      ≤ ((sortStrings (collectSnaps es pfx)).filter (fun n => stringLess name n)).length := by
    conv_rhs => rw [← List.take_append_drop k (sortStrings (collectSnaps es pfx))]
    rw [List.filter_append, List.length_append, hdrop]
    omega
  rw [List.length_drop] at hlen
  omega

/-- The directory of the label is in place after its block unless `retention` or more
greater names push it out, or a non-directory holds its name. -/
theorem label_mem_blockEntries {es : List DirEntry} {name pfx : String} {retention : Int}
    (hnd : (es.map DirEntry.name).Nodup) (hret : 0 < retention)
    (hname : hasPrefix name pfx = true) (hlen : nameTooLong name = false)
    (hdir : ∀ n, lookup es name = some n → n.isDir = true)
    (hnew : (newerCount es pfx name : Int) < retention) :
    ∃ cs, (⟨name, .dir cs⟩ : DirEntry) ∈ blockEntries es name pfx retention := by
  have hin : ∃ cs, (⟨name, .dir cs⟩ : DirEntry) ∈ createdEntries es name := by
    unfold createdEntries
    rw [if_neg (by simp [hlen])]
    cases hl : lookup es name with
    | none => exact ⟨[], by simp⟩
    | some n =>
      have hd := hdir n hl
      cases n with
      | file => simp [Node.isDir] at hd
      | link d => simp [Node.isDir] at hd
      | dir cs => exact ⟨cs, by simpa using lookup_eq_some hl⟩
  obtain ⟨cs, hcs⟩ := hin
  refine ⟨cs, ?_⟩
  unfold blockEntries
  rw [if_pos hret]
  refine List.mem_filter.mpr ⟨hcs, ?_⟩
  have hnot : name ∉ removalCandidates (createdEntries es name) pfx retention := by
    intro hc
    have := newerCount_of_candidate (createdEntries_nodup hnd name) (le_of_lt hret) hc
    rw [newerCount_createdEntries es pfx name hname] at this
    omega
  simp [survives, hnot]

/-! ## The three blocks of `main` -/

theorem label_hasPrefix (g : Granularity) (now : Time) :
    hasPrefix (g.label now) g.pfx = true := by
  cases g <;> exact hasPrefix_append _ _

theorem pfx_disjoint {g other : Granularity} (hne : g ≠ other) (s : String)
    (h : hasPrefix s g.pfx = true) : hasPrefix s other.pfx = false := by
  cases hc : hasPrefix s other.pfx with
  | false => rfl
  | true =>
    have hp : g.pfx = other.pfx :=
      prefixes_disjoint (by cases g <;> simp [Granularity.pfx])
        (by cases other <;> simp [Granularity.pfx]) h hc
    exfalso
    apply hne
    cases g <;> cases other <;> first | rfl | (exfalso; revert hp; decide)

theorem blocksEntries_append (cfg : Config) (now : Time) (pre post : List Granularity) :
    ∀ es, blocksEntries cfg now (pre ++ post) es
      = blocksEntries cfg now post (blocksEntries cfg now pre es) := by
  induction pre with
  | nil => intro es; rfl
  | cons g gs ih => intro es; simp only [List.cons_append, blocksEntries]; exact ih _

/-- The blocks of the other granularities, and a block with retention zero, leave the
entries of a prefix as they are. -/
theorem withPrefix_blocksEntries (cfg : Config) (now : Time) (g : Granularity)
    (gs : List Granularity) (hgs : g ∈ gs → g.retention cfg = 0) :
    ∀ es, withPrefix g.pfx (blocksEntries cfg now gs es) = withPrefix g.pfx es := by
  induction gs with
  | nil => intro es; rfl
  | cons g1 gs ih =>
    intro es
    simp only [blocksEntries]
    rw [ih (fun hin => hgs (List.mem_cons_of_mem _ hin))]
    by_cases hg : g1 = g
    · subst hg
      have hz := hgs (List.mem_cons_self _ _)
      simp [blockEntries, hz]
    · exact withPrefix_blockEntries es _ _ _ _ (label_hasPrefix g1 now)
        (fun s hs => pfx_disjoint hg s hs)

theorem lookup_of_withPrefix_eq {es es1 : List DirEntry} {pfx name : String}
    (hname : hasPrefix name pfx = true) (h : withPrefix pfx es1 = withPrefix pfx es) :
    lookup es1 name = lookup es name := by
  rw [← lookup_withPrefix hname, h, lookup_withPrefix hname]

theorem newerCount_of_withPrefix_eq {es es1 : List DirEntry} {pfx name : String}
    (h : withPrefix pfx es1 = withPrefix pfx es) :
    newerCount es1 pfx name = newerCount es pfx name := by
  unfold newerCount
  rw [← collectSnaps_withPrefix es1, h, collectSnaps_withPrefix]

/-- The directory of the current label of a granularity after all blocks. -/
theorem label_mem_blocksEntries (cfg : Config) (now : Time) (g : Granularity)
    (pre post : List Granularity) (hpre : g ∉ pre) (hpost : g ∉ post)
    (es : List DirEntry) (hnd : (es.map DirEntry.name).Nodup)
    (hret : 0 < g.retention cfg) (hlen : nameTooLong (g.label now) = false)
    (hdir : ∀ n, lookup es (g.label now) = some n → n.isDir = true)
    (hnew : (newerCount es g.pfx (g.label now) : Int) < g.retention cfg) :
    ∃ cs, (⟨g.label now, .dir cs⟩ : DirEntry) ∈ blocksEntries cfg now (pre ++ g :: post) es := by
  have hfr := withPrefix_blocksEntries cfg now g pre (fun h => absurd h hpre) es
  have hnd1 := (blocksFs_dir cfg now pre es hnd).2
  have hl := label_hasPrefix g now
  obtain ⟨cs, hcs⟩ := label_mem_blockEntries hnd1 hret hl hlen
    (by rw [lookup_of_withPrefix_eq hl hfr]; exact hdir)
    (by rw [newerCount_of_withPrefix_eq hfr]; exact hnew)
  refine ⟨cs, ?_⟩
  rw [blocksEntries_append]
  simp only [blocksEntries]
  have hfr2 := withPrefix_blocksEntries cfg now g post (fun h => absurd h hpost)
    (blockEntries (blocksEntries cfg now pre es) (g.label now) g.pfx (g.retention cfg))
  have hm : (⟨g.label now, .dir cs⟩ : DirEntry) ∈ withPrefix g.pfx
      (blocksEntries cfg now post
        (blockEntries (blocksEntries cfg now pre es) (g.label now) g.pfx (g.retention cfg))) := by
    rw [hfr2]
    exact mem_withPrefix.mpr ⟨hcs, hl⟩
  exact (mem_withPrefix.mp hm).1

/-- What the blocks add: at most the directory of the label of each enabled granularity,
and only where the name was free. -/
theorem mem_blocksEntries (cfg : Config) (now : Time) (gs : List Granularity)
    (hgs : gs.Nodup) :
    ∀ (es : List DirEntry) (e : DirEntry), e ∈ blocksEntries cfg now gs es →
      e ∈ es ∨ ∃ g ∈ gs, 0 < g.retention cfg ∧ lookup es (g.label now) = none ∧
        e = ⟨g.label now, .dir []⟩ := by
  induction gs with
  | nil => intro es e h; exact Or.inl h
  | cons g1 gs ih =>
    intro es e h
    simp only [blocksEntries] at h
    have hnd := List.nodup_cons.mp hgs
    rcases ih hnd.2 _ e h with h1 | ⟨g, hg, hr, hl, he⟩
    · rcases mem_blockEntries h1 with h2 | ⟨hr, hl, he⟩
      · exact Or.inl h2
      · exact Or.inr ⟨g1, List.mem_cons_self _ _, hr, hl, he⟩
    · refine Or.inr ⟨g, List.mem_cons_of_mem _ hg, hr, ?_, he⟩
      have hne : g1 ≠ g := fun hc => hnd.1 (hc ▸ hg)
      rw [← hl]
      exact (lookup_of_withPrefix_eq (label_hasPrefix g now)
        (withPrefix_blockEntries es _ _ _ _ (label_hasPrefix g1 now)
          (fun s hs => pfx_disjoint hne s hs))).symm

/-- The state a run of `main` leaves when it gets past its fatal checks. -/
theorem main_fs_entries (cfg : Config) (now : Time) (fs : Root)
    (hpath : cfg.targetPath ≠ "") (hroot : fs ≠ .notDir) (hwf : fs.WF) :
    (main cfg now fs).fs
      = .dir (blocksEntries cfg now [.hourly, .daily, .monthly] fs.entries) := by
  have hmk : mkdirAll fs = .ok (.dir fs.entries) := by
    cases fs with
    | missing => rfl
    | notDir => exact absurd rfl hroot
    | dir es => rfl
  rw [(main_ok cfg now fs _ hpath hmk).2]
  exact (blocksFs_dir cfg now [.hourly, .daily, .monthly] fs.entries hwf).1

/-! ## Fixed-width decimal fields -/

theorem length_lastDigits (n u : Nat) : (lastDigits n u).length = n := by
  induction n generalizing u with
  | zero => rfl
  | succ n ih => simp [lastDigits, ih]

theorem lastDigits_zero_pad (n : Nat) :
    ∀ (k u : Nat), u < 10 ^ n → lastDigits (n + k) u = List.replicate k '0' ++ lastDigits n u := by
  induction n with
  | zero =>
    intro k u hu
    have hu0 : u = 0 := by simpa using hu
    subst hu0
    induction k with
    | zero => rfl
    | succ k ih =>
      have h0 : digitChar (0 % 10) = '0' := by decide
      have : lastDigits (0 + (k + 1)) 0 = lastDigits (0 + k) (0 / 10) ++ [digitChar (0 % 10)] := by
        simp [lastDigits]
      rw [this, h0]
      simp only [Nat.zero_div]
      rw [ih, List.replicate_succ']
      simp [lastDigits]
  | succ n ih =>
    intro k u hu
    have hdiv : u / 10 < 10 ^ n := by
      rw [Nat.div_lt_iff_lt_mul (by decide)]
      rw [pow_succ] at hu
      exact hu
    have : n + 1 + k = (n + k) + 1 := by omega
    rw [this]
    simp only [lastDigits]
    rw [ih k (u / 10) hdiv, List.append_assoc]

theorem countDigits_spec (fuel : Nat) :
    ∀ u, u ≤ fuel → u < 10 ^ countDigits fuel u ∧ ∀ w, u < 10 ^ w → countDigits fuel u ≤ w := by
  induction fuel with
  | zero =>
    intro u hu
    have : u = 0 := by omega
    subst this
    simp [countDigits]
  | succ fuel ih =>
    intro u hu
    by_cases h0 : u = 0
    · subst h0
      simp [countDigits]
    · simp only [countDigits, h0, if_false]
      have hle : u / 10 ≤ fuel := by omega
      obtain ⟨h1, h2⟩ := ih (u / 10) hle
      constructor
      · rw [pow_succ]
        exact (Nat.div_lt_iff_lt_mul (by decide)).mp h1
      · intro w hw
        cases w with
        | zero => simp at hw; exact absurd hw h0
        | succ w =>
          have : u / 10 < 10 ^ w := by
            rw [Nat.div_lt_iff_lt_mul (by decide)]
            rw [pow_succ] at hw
            exact hw
          have := h2 w this
          omega

theorem numDigits_spec (u : Nat) :
    u < 10 ^ numDigits u ∧ ∀ w, 1 ≤ w → u < 10 ^ w → numDigits u ≤ w := by
  unfold numDigits
  by_cases h0 : u = 0
  · subst h0
    simp
  · simp only [h0, if_false]
    obtain ⟨h1, h2⟩ := countDigits_spec u u (le_refl u)
    exact ⟨h1, fun w _ hw => h2 w hw⟩

/-- A field that fits its width is rendered with exactly that many digits. -/
theorem appendInt_fixed (b : List Char) (x : Int) (width : Nat)
    (h0 : 0 ≤ x) (hw : 1 ≤ width) (hlt : x.natAbs < 10 ^ width) :
    appendInt b x width = b ++ lastDigits width x.natAbs := by
  unfold appendInt
  have hneg : ¬ x < 0 := by omega
  obtain ⟨h1, h2⟩ := numDigits_spec x.natAbs
  have hle := h2 width hw hlt
  have hpad := lastDigits_zero_pad (numDigits x.natAbs) (width - numDigits x.natAbs) x.natAbs h1
  have : numDigits x.natAbs + (width - numDigits x.natAbs) = width := by omega
  rw [this] at hpad
  simp only [hneg, if_false]
  rw [hpad, List.append_assoc]

theorem digitChar_lt {d e : Nat} (hd : d < 10) (he : e < 10) :
    digitChar d < digitChar e ↔ d < e := by
  have key : ∀ d < 10, ∀ e < 10, (digitChar d < digitChar e ↔ d < e) := by decide
  exact key d hd e he

theorem lessChars_append (x1 : List Char) :
    ∀ (x2 y1 y2 : List Char), x1.length = x2.length →
      lessChars (x1 ++ y1) (x2 ++ y2)
        = (lessChars x1 x2 || (decide (x1 = x2) && lessChars y1 y2)) := by
  induction x1 with
  | nil =>
    intro x2 y1 y2 hlen
    cases x2 with
    | nil => cases y1 <;> cases y2 <;> simp [lessChars]
    | cons b bs => simp at hlen
  | cons a as ih =>
    intro x2 y1 y2 hlen
    cases x2 with
    | nil => simp at hlen
    | cons b bs =>
      have hl : as.length = bs.length := by simpa using hlen
      simp only [List.cons_append, lessChars]
      by_cases hab : a < b
      · simp [hab]
      · by_cases hba : b < a
        · have : a ≠ b := fun h => by rw [h] at hba; exact lt_irrefl _ hba
          simp [hab, hba, this]
        · have hEq : a = b := le_antisymm (not_lt.mp hba) (not_lt.mp hab)
          subst hEq
          simp only [hab, if_false]
          have := ih bs y1 y2 hl
          simp only [List.append_eq] at this ⊢
          rw [this]
          simp

theorem lessChars_lastDigits (w : Nat) :
    ∀ a b : Nat, a < 10 ^ w → b < 10 ^ w →
      (lessChars (lastDigits w a) (lastDigits w b) = decide (a < b)) ∧
      (lastDigits w a = lastDigits w b ↔ a = b) := by
  induction w with
  | zero =>
    intro a b ha hb
    have ha0 : a = 0 := by simpa using ha
    have hb0 : b = 0 := by simpa using hb
    subst ha0 hb0
    simp [lastDigits, lessChars]
  | succ w ih =>
    intro a b ha hb
    have hda : a / 10 < 10 ^ w := by
      rw [Nat.div_lt_iff_lt_mul (by decide)]; rw [pow_succ] at ha; exact ha
    have hdb : b / 10 < 10 ^ w := by
      rw [Nat.div_lt_iff_lt_mul (by decide)]; rw [pow_succ] at hb; exact hb
    obtain ⟨h1, h2⟩ := ih (a / 10) (b / 10) hda hdb
    have hma : a % 10 < 10 := Nat.mod_lt _ (by decide)
    have hmb : b % 10 < 10 := Nat.mod_lt _ (by decide)
    have hdig : lessChars [digitChar (a % 10)] [digitChar (b % 10)] = decide (a % 10 < b % 10) := by
      by_cases h : a % 10 < b % 10
      · simp [lessChars, (digitChar_lt hma hmb).mpr h, h]
      · have h3 : ¬ digitChar (a % 10) < digitChar (b % 10) := fun hc =>
          h ((digitChar_lt hma hmb).mp hc)
        simp [lessChars, h3, h]
    have hinj : digitChar (a % 10) = digitChar (b % 10) ↔ a % 10 = b % 10 := by
      constructor
      · intro h
        by_contra hne
        rcases Nat.lt_or_gt_of_ne hne with hlt | hgt
        · have := (digitChar_lt hma hmb).mpr hlt
          rw [h] at this
          exact lt_irrefl _ this
        · have := (digitChar_lt hmb hma).mpr hgt
          rw [h] at this
          exact lt_irrefl _ this
      · intro h
        rw [h]
    constructor
    · simp only [lastDigits]
      rw [lessChars_append _ _ _ _ (by simp [length_lastDigits]), h1, hdig]
      by_cases hlt : a < b
      · by_cases hq : a / 10 < b / 10
        · simp [hlt, hq]
        · have hqe : a / 10 = b / 10 := by omega
          have hr : a % 10 < b % 10 := by omega
          simp [hlt, hq, h2.mpr hqe, hr]
      · by_cases hq : a / 10 < b / 10
        · omega
        · by_cases hqe : a / 10 = b / 10
          · have hr : ¬ a % 10 < b % 10 := by omega
            simp [hlt, hq, hr]
          · have : ¬ lastDigits w (a / 10) = lastDigits w (b / 10) := fun hc => hqe (h2.mp hc)
            simp [hlt, hq, this]
    · simp only [lastDigits]
      constructor
      · intro h
        have hlen : (lastDigits w (a / 10)).length = (lastDigits w (b / 10)).length := by
          simp [length_lastDigits]
        have := List.append_inj h hlen
        have e1 := h2.mp this.1
        have e2 := hinj.mp (by simpa using this.2)
        omega
      · intro h
        rw [h]

/-! ## Labels as fixed-width fields -/

theorem appendInt_year (b : List Char) (t : Time) (hy : t.FourDigitYear) :
    appendInt b t.year 4 = b ++ lastDigits 4 t.year.natAbs := by
  obtain ⟨h0, h1⟩ := hy
  exact appendInt_fixed b t.year 4 h0 (by decide) (by norm_num; omega)

theorem appendInt_two (b : List Char) (n : Nat) (hn : n < 100) :
    appendInt b (n : Int) 2 = b ++ lastDigits 2 n := by
  have := appendInt_fixed b (n : Int) 2 (by omega) (by decide) (by norm_num; omega)
  simpa using this

theorem hourlyName_data (t : Time) (hy : t.FourDigitYear) (hv : t.Valid) :
    (hourlyName t).data = "hourly-".data ++ (lastDigits 4 t.year.natAbs ++
      (lastDigits 2 t.month ++ (lastDigits 2 t.day ++ lastDigits 2 t.hour))) := by
  obtain ⟨_, hm, _, hd, hh⟩ := hv
  simp only [hourlyName, format2006010215, String.data_append]
  rw [appendInt_year _ t hy, appendInt_two _ t.month (by omega),
    appendInt_two _ t.day (by omega), appendInt_two _ t.hour (by omega)]
  simp

theorem dailyName_data (t : Time) (hy : t.FourDigitYear) (hv : t.Valid) :
    (dailyName t).data = "daily-".data ++ (lastDigits 4 t.year.natAbs ++
      (lastDigits 2 t.month ++ lastDigits 2 t.day)) := by
  obtain ⟨_, hm, _, hd, _⟩ := hv
  simp only [dailyName, format20060102, String.data_append]
  rw [appendInt_year _ t hy, appendInt_two _ t.month (by omega),
    appendInt_two _ t.day (by omega)]
  simp

theorem monthlyName_data (t : Time) (hy : t.FourDigitYear) (hv : t.Valid) :
    (monthlyName t).data = "monthly-".data ++ (lastDigits 4 t.year.natAbs ++
      lastDigits 2 t.month) := by
  obtain ⟨_, hm, _, _, _⟩ := hv
  simp only [monthlyName, format200601, String.data_append]
  rw [appendInt_year _ t hy, appendInt_two _ t.month (by omega)]
  simp

theorem lessChars_same_left (p a b : List Char) :
    lessChars (p ++ a) (p ++ b) = lessChars a b := by
  rw [lessChars_append p p a b rfl, lessChars_irrefl]
  simp

/-- Comparison of two fields of the same width followed by further text. -/
theorem lessChars_field (w a b : Nat) (ha : a < 10 ^ w) (hb : b < 10 ^ w)
    (r1 r2 : List Char) :
    lessChars (lastDigits w a ++ r1) (lastDigits w b ++ r2)
      = (decide (a < b) || (decide (a = b) && lessChars r1 r2)) := by
  obtain ⟨h1, h2⟩ := lessChars_lastDigits w a b ha hb
  rw [lessChars_append _ _ _ _ (by simp [length_lastDigits]), h1]
  congr 2
  exact decide_eq_decide.mpr h2

theorem lessChars_field_last (w a b : Nat) (ha : a < 10 ^ w) (hb : b < 10 ^ w) :
    lessChars (lastDigits w a) (lastDigits w b) = decide (a < b) :=
  (lessChars_lastDigits w a b ha hb).1

theorem hourlyName_le (t1 t2 : Time) (hy1 : t1.FourDigitYear) (hv1 : t1.Valid)
    (hy2 : t2.FourDigitYear) (hv2 : t2.Valid) :
    StrLE (hourlyName t1) (hourlyName t2) ↔ hourBucketLE t1 t2 := by
  unfold StrLE stringLess hourBucketLE
  rw [hourlyName_data t1 hy1 hv1, hourlyName_data t2 hy2 hv2, lessChars_same_left]
  obtain ⟨a0, a1⟩ := hy1
  obtain ⟨b0, b1⟩ := hy2
  obtain ⟨_, am, _, ad, ah⟩ := hv1
  obtain ⟨_, bm, _, bd, bh⟩ := hv2
  rw [lessChars_field 4 _ _ (by norm_num; omega) (by norm_num; omega),
    lessChars_field 2 _ _ (by norm_num; omega) (by norm_num; omega),
    lessChars_field 2 _ _ (by norm_num; omega) (by norm_num; omega),
    lessChars_field_last 2 _ _ (by norm_num; omega) (by norm_num; omega)]
  simp only [Bool.or_eq_false_iff, Bool.and_eq_false_iff, decide_eq_false_iff_not]
  omega

theorem dailyName_le (t1 t2 : Time) (hy1 : t1.FourDigitYear) (hv1 : t1.Valid)
    (hy2 : t2.FourDigitYear) (hv2 : t2.Valid) :
    StrLE (dailyName t1) (dailyName t2) ↔ dayBucketLE t1 t2 := by
  unfold StrLE stringLess dayBucketLE
  rw [dailyName_data t1 hy1 hv1, dailyName_data t2 hy2 hv2, lessChars_same_left]
  obtain ⟨a0, a1⟩ := hy1
  obtain ⟨b0, b1⟩ := hy2
  obtain ⟨_, am, _, ad, ah⟩ := hv1
  obtain ⟨_, bm, _, bd, bh⟩ := hv2
  rw [lessChars_field 4 _ _ (by norm_num; omega) (by norm_num; omega),
    lessChars_field 2 _ _ (by norm_num; omega) (by norm_num; omega),
    lessChars_field_last 2 _ _ (by norm_num; omega) (by norm_num; omega)]
  simp only [Bool.or_eq_false_iff, Bool.and_eq_false_iff, decide_eq_false_iff_not]
  omega

theorem monthlyName_le (t1 t2 : Time) (hy1 : t1.FourDigitYear) (hv1 : t1.Valid)
    (hy2 : t2.FourDigitYear) (hv2 : t2.Valid) :
    StrLE (monthlyName t1) (monthlyName t2) ↔ monthBucketLE t1 t2 := by
  unfold StrLE stringLess monthBucketLE
  rw [monthlyName_data t1 hy1 hv1, monthlyName_data t2 hy2 hv2, lessChars_same_left]
  obtain ⟨a0, a1⟩ := hy1
  obtain ⟨b0, b1⟩ := hy2
  obtain ⟨_, am, _, ad, ah⟩ := hv1
  obtain ⟨_, bm, _, bd, bh⟩ := hv2
  rw [lessChars_field 4 _ _ (by norm_num; omega) (by norm_num; omega),
    lessChars_field_last 2 _ _ (by norm_num; omega) (by norm_num; omega)]
  simp only [Bool.or_eq_false_iff, Bool.and_eq_false_iff, decide_eq_false_iff_not]
  omega

theorem label_le (g : Granularity) (t1 t2 : Time) (hy1 : t1.FourDigitYear) (hv1 : t1.Valid)
    (hy2 : t2.FourDigitYear) (hv2 : t2.Valid) :
    StrLE (g.label t1) (g.label t2) ↔ g.bucketLE t1 t2 := by
  cases g
  · exact hourlyName_le t1 t2 hy1 hv1 hy2 hv2
  · exact dailyName_le t1 t2 hy1 hv1 hy2 hv2
  · exact monthlyName_le t1 t2 hy1 hv1 hy2 hv2

/-! ## The claims of the specification -/

/-- C2 (prefix isolation): a rotation leaves in place, unchanged, every entry that is not
a directory or whose name lacks the prefix, and adds nothing; so rotating one of
`hourly-`, `daily-`, `monthly-` never removes an entry carrying another of these
prefixes, whatever the retention. -/
theorem rotateSnapshots_prefix_isolation (fs : Root) (pfx : String) (retention : Int)
    (hwf : fs.WF) :
    (∀ e ∈ fs.entries, (e.node.isDir = false ∨ hasPrefix e.name pfx = false) →
      e ∈ (rotateSnapshots fs pfx retention).fs.entries) ∧
    (∀ e ∈ (rotateSnapshots fs pfx retention).fs.entries, e ∈ fs.entries) ∧
    (∀ other ∈ ["hourly-", "daily-", "monthly-"], pfx ∈ ["hourly-", "daily-", "monthly-"] →
      other ≠ pfx → ∀ e ∈ fs.entries, hasPrefix e.name other = true →
        e ∈ (rotateSnapshots fs pfx retention).fs.entries) := by
  cases fs with
  | missing => simp [rotateSnapshots_not_dir, Root.entries]
  | notDir => simp [rotateSnapshots_not_dir, Root.entries]
  | dir es =>
    have hnd : (es.map DirEntry.name).Nodup := hwf
    have hkeep : ∀ e ∈ es, (e.node.isDir = false ∨ hasPrefix e.name pfx = false) →
        e ∈ (rotateSnapshots (.dir es) pfx retention).fs.entries := by
      intro e he h
      rw [rotateSnapshots_fs_any es pfx retention hnd]
      exact List.mem_filter.mpr ⟨he, survives_of_not_snap he hnd h⟩
    refine ⟨hkeep, ?_, ?_⟩
    · intro e he
      rw [rotateSnapshots_fs_any es pfx retention hnd] at he
      exact (List.mem_filter.mp he).1
    · intro other ho hp hne e he hpre
      apply hkeep e he
      right
      cases hc : hasPrefix e.name pfx with
      | false => rfl
      | true => exact absurd (prefixes_disjoint ho hp hpre hc) hne

theorem rotateSnapshots_prefix_isolation_witness :
    (⟨"daily-20240101", .dir []⟩ : DirEntry) ∈
      (rotateSnapshots (.dir [⟨"daily-20240101", .dir []⟩, ⟨"daily-20240102", .dir []⟩,
        ⟨"hourly-2024010100", .dir []⟩, ⟨"hourly-2024010101", .dir []⟩]) "hourly-" 1).fs.entries :=
  (rotateSnapshots_prefix_isolation
    (.dir [⟨"daily-20240101", .dir []⟩, ⟨"daily-20240102", .dir []⟩,
      ⟨"hourly-2024010100", .dir []⟩, ⟨"hourly-2024010101", .dir []⟩]) "hourly-" 1
    (by decide)).1 _ (by decide) (Or.inr (by decide))

set_option maxRecDepth 100000 in
/-- C3, refuted as stated: for a label of 256 bytes, one path component, nothing exists at
`root/label` in the empty root, yet the call creates nothing: `os.Stat` fails with
`ENAMETOOLONG`, which is not a not-exist error, and the program logs `failed to stat`. -/
theorem createSnapshotIfNotExists_long_label :
    isFileName (String.mk (List.replicate 256 'a')) = true ∧
    (String.mk (List.replicate 256 'a')).utf8ByteSize = 256 ∧
    lookup [] (String.mk (List.replicate 256 'a')) = none ∧
    createSnapshotIfNotExists (.dir []) (String.mk (List.replicate 256 'a'))
      = ⟨.dir [], [.statFailed (String.mk (List.replicate 256 'a')) .ENAMETOOLONG], .ok⟩ := by
  decide

/-- C3, amended (creator contract): on a snapshot root that is a directory, for a label
that is one path component of at most 255 bytes, `createSnapshotIfNotExists` creates the
one empty directory `root/label` exactly when no entry of that name exists beforehand (and
then logs the creation); when an entry of any kind exists the state is unchanged; entries
of other names are neither added nor removed. -/
theorem createSnapshotIfNotExists_contract (es : List DirEntry) (label : String)
    (_hname : isFileName label = true) (hlen : label.utf8ByteSize ≤ 255) :
    (lookup es label = none →
      (createSnapshotIfNotExists (.dir es) label).fs = .dir (es ++ [⟨label, .dir []⟩])) ∧
    (lookup es label ≠ none → (createSnapshotIfNotExists (.dir es) label).fs = .dir es) ∧
    ((createSnapshotIfNotExists (.dir es) label).log = [.created label]
      ↔ lookup es label = none) ∧
    (∀ e : DirEntry, e.name ≠ label →
      (e ∈ (createSnapshotIfNotExists (.dir es) label).fs.entries ↔ e ∈ es)) := by
  have hlong : nameTooLong label = false := by
    simp only [nameTooLong, nameMax, decide_eq_false_iff_not]
    omega
  have h := createSnapshotIfNotExists_dir es label
  have hfs : (createSnapshotIfNotExists (.dir es) label).fs
      = .dir (if lookup es label = none then es ++ [⟨label, .dir []⟩] else es) := by
    rw [createSnapshotIfNotExists_fs, createdEntries, if_neg (by simp [hlong])]
  refine ⟨?_, ?_, ?_, ?_⟩
  · intro hl
    rw [hfs, if_pos hl]
  · intro hl
    rw [hfs, if_neg hl]
  · constructor
    · intro hlog
      cases hl : lookup es label with
      | none => rfl
      | some n =>
        by_cases hn : n = .link true
        · subst hn
          rw [h.2.2.1 hlong hl] at hlog
          simp at hlog
        · rw [h.2.2.2 hlong n hl hn] at hlog
          simp at hlog
    · intro hl
      rw [h.2.1 hlong hl]
  · intro e hne
    rw [hfs]
    split_ifs with hl
    · simp only [Root.entries, List.mem_append, List.mem_singleton]
      constructor
      · rintro (he | he)
        · exact he
        · rw [he] at hne
          exact absurd rfl hne
      · exact Or.inl
    · rfl

theorem createSnapshotIfNotExists_contract_witness :
    (createSnapshotIfNotExists (.dir [⟨"daily-20240101", .dir []⟩]) "daily-20240102").fs
      = .dir ([⟨"daily-20240101", .dir []⟩] ++ [⟨"daily-20240102", .dir []⟩]) :=
  (createSnapshotIfNotExists_contract [⟨"daily-20240101", .dir []⟩] "daily-20240102"
    (by decide) (by decide)).1 (by decide)

/-- C4 (idempotence): calling `createSnapshotIfNotExists` twice leaves the state the first
call left, and after a first call that created the directory or found it present the
second call reports `already exists`. -/
theorem createSnapshotIfNotExists_idempotent (fs : Root) (label : String)
    (_hname : isFileName label = true) :
    (createSnapshotIfNotExists (createSnapshotIfNotExists fs label).fs label).fs
      = (createSnapshotIfNotExists fs label).fs ∧
    (((createSnapshotIfNotExists fs label).log = [.created label] ∨
        (createSnapshotIfNotExists fs label).log = [.alreadyExists label]) →
      (createSnapshotIfNotExists (createSnapshotIfNotExists fs label).fs label).log
        = [.alreadyExists label]) := by
  cases fs with
  | missing => exact ⟨rfl, by simp [createSnapshotIfNotExists, stat, mkdir, isNotExist]⟩
  | notDir => exact ⟨rfl, by simp [createSnapshotIfNotExists, stat, isNotExist]⟩
  | dir es =>
    have h := createSnapshotIfNotExists_dir es label
    cases hlong : nameTooLong label with
    | true =>
      rw [h.1 hlong]
      simp only []
      rw [h.1 hlong]
      simp
    | false =>
      cases hl : lookup es label with
      | none =>
        have h2 := (createSnapshotIfNotExists_dir (es ++ [⟨label, .dir []⟩]) label).2.2.2
          hlong (.dir []) (lookup_append_new _ hl) (by simp)
        rw [h.2.1 hlong hl]
        simp only []
        rw [h2]
        simp
      | some n =>
        by_cases hn : n = .link true
        · subst hn
          rw [h.2.2.1 hlong hl]
          simp only []
          rw [h.2.2.1 hlong hl]
          simp
        · rw [h.2.2.2 hlong n hl hn]
          simp only []
          rw [h.2.2.2 hlong n hl hn]
          simp

theorem createSnapshotIfNotExists_idempotent_witness :
    (createSnapshotIfNotExists
        (createSnapshotIfNotExists (.dir []) "hourly-2024010110").fs "hourly-2024010110").log
      = [.alreadyExists "hourly-2024010110"] :=
  (createSnapshotIfNotExists_idempotent (.dir []) "hourly-2024010110" (by decide)).2
    (Or.inl (by decide))

/-- C8 (per-entry deletion isolation): a rotation with a retention that is not negative
removes exactly the removal candidates that are empty directories.  Every other entry, a non-empty candidate with its contents
included, stays in place; `syscall.Rmdir` is called on each candidate exactly once, in
ascending order, whatever the outcome of the earlier calls. -/
theorem rotateSnapshots_removes_empty_candidates (es : List DirEntry) (pfx : String)
    (retention : Int) (hwf : (Root.dir es).WF) (hret : 0 ≤ retention) :
    (rotateSnapshots (.dir es) pfx retention).fs
      = .dir (es.filter fun e =>
          !(decide (e.name ∈ removalCandidates es pfx retention) && (e.node == Node.dir []))) ∧
    (∀ e ∈ es, e.name ∈ removalCandidates es pfx retention → e.node ≠ .dir [] →
      e ∈ (rotateSnapshots (.dir es) pfx retention).fs.entries) ∧
    (∀ e ∈ es, e.name ∈ removalCandidates es pfx retention → e.node = .dir [] →
      e ∉ (rotateSnapshots (.dir es) pfx retention).fs.entries) ∧
    rmdirAttempts (rotateSnapshots (.dir es) pfx retention).log
      = removalCandidates es pfx retention ∧
    (removalCandidates es pfx retention).Nodup := by
  have hnd : (es.map DirEntry.name).Nodup := hwf
  have hfs := rotateSnapshots_fs es pfx retention hnd hret
  refine ⟨hfs, ?_, ?_, rotateSnapshots_attempts es pfx retention hret,
    removalCandidates_nodup hnd pfx retention⟩
  · intro e he _ hne
    rw [hfs]
    exact List.mem_filter.mpr ⟨he, by simp [survives, hne]⟩
  · intro e he hc hempty hmem
    rw [hfs] at hmem
    have := (List.mem_filter.mp hmem).2
    simp [survives, hc, hempty] at this

theorem rotateSnapshots_removes_empty_candidates_witness :
    (rotateSnapshots (.dir [⟨"daily-20240101", .dir ["data"]⟩, ⟨"daily-20240102", .dir []⟩,
        ⟨"daily-20240103", .dir []⟩]) "daily-" 1).fs
      = .dir [⟨"daily-20240101", .dir ["data"]⟩, ⟨"daily-20240103", .dir []⟩] :=
  (rotateSnapshots_removes_empty_candidates
    [⟨"daily-20240101", .dir ["data"]⟩, ⟨"daily-20240102", .dir []⟩,
      ⟨"daily-20240103", .dir []⟩] "daily-" 1 (by decide) (by decide)).1.trans (by decide)

/-- C10 (index safety): with a retention that is not negative, whenever the removal loop
of `rotateSnapshots` is entered `numToRemove` is `len(snaps) - retention` without
wrap-around, `0 < numToRemove <= len(snaps)`, every `snaps[i]` with
`i < numToRemove` is in range and the rotation ends without a panic; and no run of `main`
panics, since `main` rotates only with a positive retention. -/
theorem rotateSnapshots_index_safe (fs : Root) (pfx : String) (retention : Int)
    (hret : 0 ≤ retention) (cfg : Config) (now : Time) (fs0 : Root) :
    (∀ entries, readDir fs = .ok entries →
      ((sortStrings (collectSnaps entries pfx)).length : Int) > retention →
        lenSub (sortStrings (collectSnaps entries pfx)).length retention
          = ((sortStrings (collectSnaps entries pfx)).length : Int) - retention ∧
        0 < ((sortStrings (collectSnaps entries pfx)).length : Int) - retention ∧
        ((sortStrings (collectSnaps entries pfx)).length : Int) - retention
          ≤ (sortStrings (collectSnaps entries pfx)).length ∧
        ∀ i : Nat, (i : Int) < ((sortStrings (collectSnaps entries pfx)).length : Int) - retention →
          ((sortStrings (collectSnaps entries pfx))[i]?).isSome = true) ∧
    (rotateSnapshots fs pfx retention).status = .ok ∧
    (main cfg now fs0).status ≠ .panicked := by
  refine ⟨?_, rotateSnapshots_status fs pfx retention hret, ?_⟩
  · intro entries _ hgt
    refine ⟨lenSub_nonneg _ _ hret, by omega, by omega, ?_⟩
    intro i hi
    rw [List.getElem?_eq_getElem (by omega)]
    rfl
  · by_cases hp : cfg.targetPath = ""
    · rw [main_fatal cfg now fs0 (Or.inl hp)]
      simp
    · rcases mkdirAll_cases fs0 with h | h | ⟨es, h⟩
      · rw [main_fatal cfg now fs0 (Or.inr h.2)]
        simp
      · rw [(main_ok cfg now fs0 _ hp h.2).1]
        simp
      · rw [(main_ok cfg now fs0 _ hp h.2).1]
        simp

theorem rotateSnapshots_index_safe_witness :
    (rotateSnapshots (.dir [⟨"daily-20240101", .dir []⟩, ⟨"daily-20240102", .dir []⟩])
      "daily-" 0).status = .ok ∧
    (main ⟨"/mnt/cephfs", 1, 1, 1⟩ ⟨2024, 1, 1, 10⟩ .missing).status ≠ .panicked :=
  (rotateSnapshots_index_safe
    (.dir [⟨"daily-20240101", .dir []⟩, ⟨"daily-20240102", .dir []⟩]) "daily-" 0 (by decide)
    ⟨"/mnt/cephfs", 1, 1, 1⟩ ⟨2024, 1, 1, 10⟩ .missing).2

/-- C1 (rotation invariant): when the root is a directory, the retention is at least 1
and every directory carrying the prefix is empty, after `rotateSnapshots` the number of
directories carrying the prefix is `min(count_before, retention)`, their names are the
`retention` greatest names of the names before, and every name that is gone is less than
every name that remains. -/
theorem rotateSnapshots_keeps_newest (es : List DirEntry) (pfx : String) (retention : Int)
    (hwf : (Root.dir es).WF) (hret : 1 ≤ retention)
    (hempty : ∀ e ∈ es, e.node.isDir = true → hasPrefix e.name pfx = true → e.node = .dir []) :
    ((collectSnaps (rotateSnapshots (.dir es) pfx retention).fs.entries pfx).length : Int)
      = min ((collectSnaps es pfx).length : Int) retention ∧
    snapNames (rotateSnapshots (.dir es) pfx retention).fs pfx
      = greatestNames retention.toNat (collectSnaps es pfx) ∧
    (∀ x ∈ collectSnaps es pfx,
      x ∉ snapNames (rotateSnapshots (.dir es) pfx retention).fs pfx →
      ∀ y ∈ snapNames (rotateSnapshots (.dir es) pfx retention).fs pfx,
        stringLess x y = true) := by
  have hnd : (es.map DirEntry.name).Nodup := hwf
  have hnames := rotateSnapshots_snapNames es pfx retention hnd (by omega) hempty
  refine ⟨?_, ?_, ?_⟩
  · have hlen : (collectSnaps (rotateSnapshots (.dir es) pfx retention).fs.entries pfx).length
        = (snapNames (rotateSnapshots (.dir es) pfx retention).fs pfx).length := by
      simp [snapNames, length_sortStrings]
    rw [hlen, hnames, List.length_drop, length_sortStrings]
    omega
  · rw [hnames, greatestNames_eq _ _ (by omega)]
  · intro x hx hnot y hy
    rw [hnames] at hnot hy
    have hxs : x ∈ sortStrings (collectSnaps es pfx) := mem_sortStrings.mpr hx
    rw [← List.take_append_drop
      (((sortStrings (collectSnaps es pfx)).length : Int) - retention).toNat
      (sortStrings (collectSnaps es pfx))] at hxs
    rcases List.mem_append.mp hxs with h | h
    · exact take_lt_drop (collectSnaps_nodup hnd pfx) _ h hy
    · exact absurd h hnot

theorem rotateSnapshots_keeps_newest_witness :
    snapNames (rotateSnapshots (.dir [⟨"monthly-202403", .dir []⟩, ⟨"monthly-202401", .dir []⟩,
        ⟨"notes.txt", .file⟩, ⟨"monthly-202402", .dir []⟩]) "monthly-" 2).fs "monthly-"
      = ["monthly-202402", "monthly-202403"] :=
  (rotateSnapshots_keeps_newest [⟨"monthly-202403", .dir []⟩, ⟨"monthly-202401", .dir []⟩,
      ⟨"notes.txt", .file⟩, ⟨"monthly-202402", .dir []⟩] "monthly-" 2
    (by decide) (by decide) (by decide)).2.1.trans (by decide)

/-- C5 (disabled granularity): in every run of `main`, fatal or not, the entries whose
name carries the prefix of a granularity with retention 0 are the same after the run as
before it, whatever the other two retentions are. -/
theorem main_disabled_granularity_untouched (cfg : Config) (now : Time) (fs : Root)
    (g : Granularity) (hwf : fs.WF) (hzero : g.retention cfg = 0) :
    withPrefix g.pfx (main cfg now fs).fs.entries = withPrefix g.pfx fs.entries := by
  by_cases hpath : cfg.targetPath = ""
  · rw [main_fatal cfg now fs (Or.inl hpath)]
  · by_cases hroot : fs = .notDir
    · rw [main_fatal cfg now fs (Or.inr (by rw [hroot]; rfl))]
    · rw [main_fs_entries cfg now fs hpath hroot hwf]
      exact withPrefix_blocksEntries cfg now g _ (fun _ => hzero) fs.entries

theorem main_disabled_granularity_untouched_witness :
    withPrefix "hourly-"
        (main ⟨"/mnt/cephfs", 0, 1, 1⟩ ⟨2024, 1, 1, 10⟩
          (.dir [⟨"hourly-2023123100", .dir []⟩, ⟨"daily-20231230", .dir []⟩,
            ⟨"hourly-2023123101", .dir []⟩, ⟨"daily-20231231", .dir []⟩])).fs.entries
      = [⟨"hourly-2023123100", .dir []⟩, ⟨"hourly-2023123101", .dir []⟩] :=
  (main_disabled_granularity_untouched ⟨"/mnt/cephfs", 0, 1, 1⟩ ⟨2024, 1, 1, 10⟩
    (.dir [⟨"hourly-2023123100", .dir []⟩, ⟨"daily-20231230", .dir []⟩,
      ⟨"hourly-2023123101", .dir []⟩, ⟨"daily-20231231", .dir []⟩]) .hourly
    (by decide) (by decide)).trans (by decide)

/-- C7, refuted as stated: with hourly retention 1 and the directory of a later hour
present, the run creates the directory of the current hour and its rotation removes it
again, so no entry with the current label is left. -/
theorem main_current_snapshot_rotated_away :
    (⟨"/mnt/cephfs", 1, 0, 0⟩ : Config).targetPath ≠ "" ∧
    0 < Granularity.hourly.retention ⟨"/mnt/cephfs", 1, 0, 0⟩ ∧
    main ⟨"/mnt/cephfs", 1, 0, 0⟩ ⟨2024, 1, 1, 10⟩ (.dir [⟨"hourly-2024010111", .dir []⟩])
      = ⟨.dir [⟨"hourly-2024010111", .dir []⟩],
          [.created "hourly-2024010110", .removed "hourly-2024010110"], .ok⟩ ∧
    lookup (main ⟨"/mnt/cephfs", 1, 0, 0⟩ ⟨2024, 1, 1, 10⟩
      (.dir [⟨"hourly-2024010111", .dir []⟩])).fs.entries (hourlyName ⟨2024, 1, 1, 10⟩)
      = none := by
  decide

/-- C7, amended: when the target path is not empty and the snapshot root is, or can be
made, a directory, the root is a directory after the run, and every entry present after
the run was there before or is the new empty directory of the current label of an enabled
granularity whose name was free; for each enabled granularity the root holds a directory
with the current label provided the label is at most 255 bytes long, no non-directory has
that name and fewer than `retention` directories of the prefix have a greater name. -/
theorem main_current_snapshot_present (cfg : Config) (now : Time) (fs : Root)
    (hpath : cfg.targetPath ≠ "") (hroot : fs ≠ .notDir) (hwf : fs.WF) :
    (∃ es, (main cfg now fs).fs = .dir es) ∧
    (∀ g : Granularity, 0 < g.retention cfg →
      (g.label now).utf8ByteSize ≤ 255 →
      (∀ n, lookup fs.entries (g.label now) = some n → n.isDir = true) →
      (newerCount fs.entries g.pfx (g.label now) : Int) < g.retention cfg →
      ∃ cs, (⟨g.label now, .dir cs⟩ : DirEntry) ∈ (main cfg now fs).fs.entries) ∧
    (∀ e ∈ (main cfg now fs).fs.entries,
      e ∈ fs.entries ∨ ∃ g1 : Granularity, 0 < g1.retention cfg ∧
        lookup fs.entries (g1.label now) = none ∧ e = ⟨g1.label now, .dir []⟩) := by
  rw [main_fs_entries cfg now fs hpath hroot hwf]
  refine ⟨⟨_, rfl⟩, ?_, ?_⟩
  · intro g hret hlen hdir hnew
    have hlong : nameTooLong (g.label now) = false := by
      simp only [nameTooLong, nameMax, decide_eq_false_iff_not]
      omega
    simp only [Root.entries]
    cases g with
    | hourly =>
      exact label_mem_blocksEntries cfg now .hourly [] [.daily, .monthly]
        (by decide) (by decide) fs.entries hwf hret hlong hdir hnew
    | daily =>
      exact label_mem_blocksEntries cfg now .daily [.hourly] [.monthly]
        (by decide) (by decide) fs.entries hwf hret hlong hdir hnew
    | monthly =>
      exact label_mem_blocksEntries cfg now .monthly [.hourly, .daily] []
        (by decide) (by decide) fs.entries hwf hret hlong hdir hnew
  · intro e he
    rcases mem_blocksEntries cfg now [.hourly, .daily, .monthly] (by decide) fs.entries e he
      with h | ⟨g1, _, h⟩
    · exact Or.inl h
    · exact Or.inr ⟨g1, h⟩

theorem main_current_snapshot_present_witness :
    (∃ cs, (⟨"hourly-2024010110", .dir cs⟩ : DirEntry) ∈
      (main ⟨"/mnt/cephfs", 3, 0, 0⟩ ⟨2024, 1, 1, 10⟩ .missing).fs.entries) ∧
    (∀ e ∈ (main ⟨"/mnt/cephfs", 1, 0, 0⟩ ⟨2024, 1, 1, 10⟩
        (.dir [⟨"hourly-2024010111", .dir []⟩])).fs.entries,
      e ∈ [(⟨"hourly-2024010111", .dir []⟩ : DirEntry)] ∨
        ∃ g1 : Granularity, 0 < g1.retention ⟨"/mnt/cephfs", 1, 0, 0⟩ ∧
          lookup [⟨"hourly-2024010111", .dir []⟩] (g1.label ⟨2024, 1, 1, 10⟩) = none ∧
          e = ⟨g1.label ⟨2024, 1, 1, 10⟩, .dir []⟩) :=
  ⟨(main_current_snapshot_present ⟨"/mnt/cephfs", 3, 0, 0⟩ ⟨2024, 1, 1, 10⟩ .missing
      (by decide) (by decide) (by decide)).2.1 .hourly
      (by decide) (by decide) (by decide) (by decide),
   (main_current_snapshot_present ⟨"/mnt/cephfs", 1, 0, 0⟩ ⟨2024, 1, 1, 10⟩
      (.dir [⟨"hourly-2024010111", .dir []⟩]) (by decide) (by decide) (by decide)).2.2⟩

set_option maxRecDepth 100000 in
/-- C9, refuted as stated: with a regular file named by the current label in the root,
nothing is created, and the rotation keeps the three greatest directory names, which are
not the three greatest names of the existing names together with the label.  Likewise a
label of 256 bytes is not created (`os.Stat` fails with `ENAMETOOLONG`), so the one
existing name is kept although the label is the greater name. -/
theorem create_then_rotate_label_is_file :
    ((∀ e ∈ [(⟨"daily-20240101", .dir []⟩ : DirEntry), ⟨"daily-20240102", .dir []⟩,
        ⟨"daily-20240103", .dir []⟩, ⟨"daily-20240104", .dir []⟩,
        ⟨"daily-20240105", .dir []⟩, ⟨"daily-20240106", .file⟩],
      e.node.isDir = true → hasPrefix e.name "daily-" = true → e.node = .dir []) ∧
    snapNames (snapshotAndRotate
        (.dir [⟨"daily-20240101", .dir []⟩, ⟨"daily-20240102", .dir []⟩,
          ⟨"daily-20240103", .dir []⟩, ⟨"daily-20240104", .dir []⟩,
          ⟨"daily-20240105", .dir []⟩, ⟨"daily-20240106", .file⟩])
        "daily-20240106" "daily-" 3).fs "daily-"
      = ["daily-20240103", "daily-20240104", "daily-20240105"] ∧
    greatestNames 3 (List.insert "daily-20240106"
        ["daily-20240101", "daily-20240102", "daily-20240103", "daily-20240104",
          "daily-20240105"])
      = ["daily-20240104", "daily-20240105", "daily-20240106"]) ∧
    (("daily-" ++ String.mk (List.replicate 250 'x')).utf8ByteSize = 256 ∧
    isFileName ("daily-" ++ String.mk (List.replicate 250 'x')) = true ∧
    hasPrefix ("daily-" ++ String.mk (List.replicate 250 'x')) "daily-" = true ∧
    snapNames (snapshotAndRotate (.dir [⟨"daily-20240101", .dir []⟩])
        ("daily-" ++ String.mk (List.replicate 250 'x')) "daily-" 1).fs "daily-"
      = ["daily-20240101"] ∧
    greatestNames 1 (List.insert ("daily-" ++ String.mk (List.replicate 250 'x'))
        ["daily-20240101"])
      = ["daily-" ++ String.mk (List.replicate 250 'x')]) := by
  decide

/-- C9, amended: on a root whose directories with the prefix are all empty, with a
retention of at least 1 and a label that carries the prefix, is one path component of at
most 255 bytes and is not the name of a non-directory, `createSnapshotIfNotExists`
followed by `rotateSnapshots` leaves as directories of the prefix exactly the `retention`
greatest names among the names before together with the label. -/
theorem create_then_rotate_keeps_newest (es : List DirEntry) (pfx label : String)
    (retention : Int) (hwf : (Root.dir es).WF) (hret : 1 ≤ retention)
    (_hname : isFileName label = true) (hlen : label.utf8ByteSize ≤ 255)
    (hpre : hasPrefix label pfx = true)
    (hempty : ∀ e ∈ es, e.node.isDir = true → hasPrefix e.name pfx = true → e.node = .dir [])
    (hdir : ∀ n, lookup es label = some n → n.isDir = true) :
    snapNames (snapshotAndRotate (.dir es) label pfx retention).fs pfx
      = greatestNames retention.toNat (List.insert label (collectSnaps es pfx)) := by
  have hnd : (es.map DirEntry.name).Nodup := hwf
  have hnd1 := createdEntries_nodup hnd label
  have hlong : nameTooLong label = false := by
    simp only [nameTooLong, nameMax, decide_eq_false_iff_not]
    omega
  have hce : createdEntries es label
      = if lookup es label = none then es ++ [⟨label, .dir []⟩] else es := by
    rw [createdEntries, if_neg (by simp [hlong])]
  have hempty1 : ∀ e ∈ createdEntries es label,
      e.node.isDir = true → hasPrefix e.name pfx = true → e.node = .dir [] := by
    intro e he
    rw [hce] at he
    split_ifs at he with hl
    · rcases List.mem_append.mp he with h | h
      · exact hempty e h
      · intro _ _
        rw [List.mem_singleton.mp h]
    · exact hempty e he
  have hperm : (collectSnaps (createdEntries es label) pfx).Perm
      (List.insert label (collectSnaps es pfx)) := by
    rw [hce]
    cases hl : lookup es label with
    | none =>
      have hnot : label ∉ collectSnaps es pfx := by
        intro hc
        obtain ⟨e, he, _, hn⟩ := mem_collectSnaps.mp hc
        exact lookup_eq_none.mp hl e he hn
      rw [if_pos rfl, collectSnaps_append_new es pfx label hpre, List.insert_of_not_mem hnot]
      exact List.perm_append_singleton _ _
    | some n =>
      have hin : label ∈ collectSnaps es pfx :=
        mem_collectSnaps.mpr ⟨_, lookup_eq_some hl, ⟨hdir n hl, hpre⟩, rfl⟩
      rw [if_neg (by simp), List.insert_of_mem hin]
  rw [snapshotAndRotate_fs, createSnapshotIfNotExists_fs]
  change snapNames (rotateSnapshots (.dir (createdEntries es label)) pfx retention).fs pfx = _
  rw [rotateSnapshots_snapNames _ pfx retention hnd1 (by omega) hempty1,
    ← greatestNames_eq _ _ (by omega)]
  exact greatestNames_perm hperm _

theorem create_then_rotate_keeps_newest_witness :
    snapNames (snapshotAndRotate
        (.dir [⟨"daily-20240101", .dir []⟩, ⟨"daily-20240102", .dir []⟩,
          ⟨"daily-20240103", .dir []⟩, ⟨"daily-20240104", .dir []⟩,
          ⟨"daily-20240105", .dir []⟩])
        "daily-20240105" "daily-" 3).fs "daily-"
      = ["daily-20240103", "daily-20240104", "daily-20240105"] ∧
    snapNames (snapshotAndRotate
        (.dir [⟨"daily-20240101", .dir []⟩, ⟨"daily-20240102", .dir []⟩,
          ⟨"daily-20240103", .dir []⟩, ⟨"daily-20240104", .dir []⟩,
          ⟨"daily-20240105", .dir []⟩])
        "daily-20240106" "daily-" 3).fs "daily-"
      = ["daily-20240104", "daily-20240105", "daily-20240106"] :=
  ⟨(create_then_rotate_keeps_newest
      [⟨"daily-20240101", .dir []⟩, ⟨"daily-20240102", .dir []⟩, ⟨"daily-20240103", .dir []⟩,
        ⟨"daily-20240104", .dir []⟩, ⟨"daily-20240105", .dir []⟩]
      "daily-" "daily-20240105" 3 (by decide) (by decide) (by decide) (by decide) (by decide)
      (by decide) (by decide)).trans (by decide),
   (create_then_rotate_keeps_newest
      [⟨"daily-20240101", .dir []⟩, ⟨"daily-20240102", .dir []⟩, ⟨"daily-20240103", .dir []⟩,
        ⟨"daily-20240104", .dir []⟩, ⟨"daily-20240105", .dir []⟩]
      "daily-" "daily-20240106" 3 (by decide) (by decide) (by decide) (by decide) (by decide)
      (by decide) (by decide)).trans (by decide)⟩

/-- C6, refuted as stated: the layout `2006` renders the year 10000 with five digits, so
the hourly label of 10000-01-01 00h sorts before that of 9999-12-31 23h although its
bucket is the later one. -/
theorem label_order_fails_after_year_9999 :
    (⟨10000, 1, 1, 0⟩ : Time).Valid ∧ (⟨9999, 12, 31, 23⟩ : Time).Valid ∧
    hourlyName ⟨10000, 1, 1, 0⟩ = "hourly-10000010100" ∧
    hourlyName ⟨9999, 12, 31, 23⟩ = "hourly-9999123123" ∧
    StrLE (Granularity.hourly.label ⟨10000, 1, 1, 0⟩)
      (Granularity.hourly.label ⟨9999, 12, 31, 23⟩) ∧
    ¬ Granularity.hourly.bucketLE ⟨10000, 1, 1, 0⟩ ⟨9999, 12, 31, 23⟩ := by
  decide

/-- C6, amended: for calendar times whose year lies in 0..9999, and for each granularity,
the label of the first time is less than or equal to the label of the second in the order
of `sort.Strings` exactly when its time bucket is earlier or the same; hence the sorted
labels of such times are listed oldest first. -/
theorem label_order_is_chronological (g : Granularity) (t1 t2 : Time)
    (hv1 : t1.Valid) (hy1 : t1.FourDigitYear) (hv2 : t2.Valid) (hy2 : t2.FourDigitYear)
    (ts : List Time) (hts : ∀ t ∈ ts, t.Valid ∧ t.FourDigitYear) :
    (StrLE (g.label t1) (g.label t2) ↔ g.bucketLE t1 t2) ∧
    (sortStrings (ts.map fun t => g.label t)).Pairwise
      (fun a b => ∀ u ∈ ts, ∀ v ∈ ts, g.label u = a → g.label v = b → g.bucketLE u v) := by
  refine ⟨label_le g t1 t2 hy1 hv1 hy2 hv2, ?_⟩
  refine (sortStrings_sorted _).imp ?_
  intro a b hab u hu v hv hua hvb
  rw [← hua, ← hvb] at hab
  exact (label_le g u v (hts u hu).2 (hts u hu).1 (hts v hv).2 (hts v hv).1).mp hab

theorem label_order_is_chronological_witness :
    StrLE (Granularity.daily.label ⟨2023, 12, 31, 23⟩)
      (Granularity.daily.label ⟨2024, 1, 1, 0⟩) :=
  (label_order_is_chronological .daily ⟨2023, 12, 31, 23⟩ ⟨2024, 1, 1, 0⟩
    (by decide) (by decide) (by decide) (by decide)
    [⟨2024, 1, 1, 0⟩, ⟨2023, 12, 31, 23⟩] (by decide)).1.mpr (by decide)

end Snapshot
